import Mathlib

/-!
Verification of the SDN controller core (`sdn_controller.py`): topology model,
Dijkstra shortest-path engine, ECMP next-hop computation, flow-table synthesis
and reconfiguration.  Python dicts are embedded as association lists preserving
insertion order; `float('inf')` distances become `WithTop ℕ`; the in-place
`random.shuffle` of the ECMP list is modelled by an explicit permutation
parameter; dict accesses that can raise `KeyError` are modelled with `Except`.
-/

namespace SDN

abbrev Node := String
abbrev Weight := Nat
abbrev Dist := WithTop Nat

/-! ### Python dict primitives (association lists, insertion-ordered) -/

def keysOf {α : Type} (l : List (Node × α)) : List Node := l.map Prod.fst

/-- `d.get(k)` / `d[k]` lookup: first binding of the key. -/
def dictGet {α : Type} : List (Node × α) → Node → Option α
  | [], _ => none
  | p :: t, k => if p.1 = k then some p.2 else dictGet t k

/-- `d[k] = v`: overwrite in place if present (dicts keep the slot), else append. -/
def dictSet {α : Type} : List (Node × α) → Node → α → List (Node × α)
  | [], k, v => [(k, v)]
  | p :: t, k, v => if p.1 = k then (k, v) :: t else p :: dictSet t k v

/-- `d.pop(k, None)` / `del d[k]` for a present key: drop the binding. -/
def dictRemove {α : Type} : List (Node × α) → Node → List (Node × α)
  | [], _ => []
  | p :: t, k => if p.1 = k then dictRemove t k else p :: dictRemove t k

/-- In-place mutation of the value stored at `k` (no-op if absent). -/
def dictUpdate {α : Type} : List (Node × α) → Node → (α → α) → List (Node × α)
  | [], _, _ => []
  | p :: t, k, f =>
      if p.1 = k then (p.1, f p.2) :: dictUpdate t k f else p :: dictUpdate t k f

/-! ### Topology model (`class Graph`) -/

abbrev Adj := List (Node × Weight)
abbrev Graph := List (Node × Adj)

/-- `Graph.add_node`: `self.adj.setdefault(node, {})`. -/
def addNode (g : Graph) (n : Node) : Graph :=
  if (dictGet g n).isSome then g else g ++ [(n, [])]

/-- `Graph.remove_node`: for each neighbour delete the back-edge, then delete the
row.  On the (always symmetric) adjacency the `del self.adj[nbr][node]` cannot
raise, so it is modelled as unconditional removal. -/
def removeNode (g : Graph) (n : Node) : Graph :=
  match dictGet g n with
  | none => g
  | some nbrs =>
      dictRemove (nbrs.foldl (fun acc p => dictUpdate acc p.1 (fun m => dictRemove m n)) g) n

/-- `Graph.add_link`: create both endpoints, then set the weight both ways. -/
def addLink (g : Graph) (u v : Node) (w : Weight) : Graph :=
  let g1 := addNode (addNode g u) v
  dictUpdate (dictUpdate g1 u (fun m => dictSet m v w)) v (fun m => dictSet m u w)

/-- `Graph.remove_link`: `pop(·, None)` both ways. -/
def removeLink (g : Graph) (u v : Node) : Graph :=
  dictUpdate (dictUpdate g u (fun m => dictRemove m v)) v (fun m => dictRemove m u)

/-- `Graph.neighbors`: `self.adj.get(u, {}).items()`. -/
def neighborsG (g : Graph) (u : Node) : Adj := (dictGet g u).getD []

/-- `Graph.nodes`: `list(self.adj.keys())`. -/
def nodesG (g : Graph) : List Node := keysOf g

/-- `self.adj[u][v]` as a partial lookup. -/
def lookupEdge (g : Graph) (u v : Node) : Option Weight := dictGet (neighborsG g u) v

/-- Well-formedness that every reachable topology state enjoys: unique keys at
both dict levels and symmetric adjacency. -/
def WF (g : Graph) : Prop :=
  (nodesG g).Nodup ∧ (∀ p ∈ g, (keysOf p.2).Nodup) ∧
    (∀ p ∈ g, ∀ q ∈ p.2, lookupEdge g q.1 p.1 = some q.2)

instance (g : Graph) : Decidable (WF g) := by
  unfold WF; infer_instance

/-! ### Shortest-path engine (`SDNController.compute_shortest_paths`) -/

/-- Dijkstra state: the `dist` and `prev` dicts (as total maps; the tracked key
sets are `nodes ∪ {src}` and `nodes` respectively) and the `heapq` list. -/
structure DState where
  dist : Node → Dist
  prev : Node → Option Node
  pq : List (Nat × Node)

/-- Code-point lexicographic strict order on strings, Python's `str` order. -/
def strLt : List Char → List Char → Bool
  | [], [] => false
  | [], _ :: _ => true
  | _ :: _, [] => false
  | a :: as, b :: bs => Nat.blt a.toNat b.toNat || (a == b && strLt as bs)

def nodeLe (a b : Node) : Bool := !(strLt b.data a.data)

/-- `heapq` comparison on `(nd, v)` tuples: lexicographic, strings by code
points, exactly Python's tuple order. -/
def pqLe (a b : Nat × Node) : Bool :=
  Nat.blt a.1 b.1 || (a.1 == b.1 && nodeLe a.2 b.2)

/-- `heapq.heappop`: remove the (first occurrence of the) minimum tuple. -/
def extractMin : List (Nat × Node) → Option ((Nat × Node) × List (Nat × Node))
  | [] => none
  | a :: rest =>
      match extractMin rest with
      | none => some (a, [])
      | some (m, rest1) => if pqLe a m then some (a, rest) else some (m, a :: rest1)

/-- One relaxation `if nd < dist[v]: dist[v] = nd; prev[v] = u; heappush`. -/
def relaxStep (u : Node) (d : Nat) (st : DState) (q : Node × Weight) : DState :=
  if ((d + q.2 : Nat) : Dist) < st.dist q.1 then
    { dist := fun x => if x = q.1 then ((d + q.2 : Nat) : Dist) else st.dist x
      prev := fun x => if x = q.1 then some u else st.prev x
      pq := (d + q.2, q.1) :: st.pq }
  else st

/-- The `while pq:` loop of `compute_shortest_paths`, with structural fuel
(a proven-sufficient bound is supplied below). -/
def dijkstraLoop (g : Graph) : Nat → DState → DState
  | 0, st => st
  | fuel + 1, st =>
      match extractMin st.pq with
      | none => st
      | some ((d, u), rest) =>
          if (d : Dist) > st.dist u then dijkstraLoop g fuel { st with pq := rest }
          else dijkstraLoop g fuel
            ((neighborsG g u).foldl (relaxStep u d) { st with pq := rest })

/-- Every node that can ever hold a finite distance: the source plus every key
and every neighbour occurring in the adjacency dict. -/
def uList (g : Graph) (src : Node) : List Node :=
  (src :: g.flatMap (fun p => p.1 :: keysOf p.2)).dedup

def rowWeight (m : Adj) : Nat := (m.map Prod.snd).sum

/-- Total weight over the (directed) adjacency dict; every finite tentative
distance stays below it. -/
def wTotal (g : Graph) : Nat := (g.map (fun p => rowWeight p.2)).sum

/-- Fuel that provably empties the queue. -/
def dijkstraFuel (g : Graph) (src : Node) : Nat :=
  1 + (uList g src).length * (wTotal g + 1)

def dInit (src : Node) : DState :=
  { dist := fun n => if n = src then (0 : Dist) else ⊤
    prev := fun _ => none
    pq := [(0, src)] }

/-- `compute_shortest_paths(src)`. -/
def dijkstra (g : Graph) (src : Node) : DState :=
  dijkstraLoop g (dijkstraFuel g src) (dInit src)

/-! ### `compute_equal_cost_next_hops` -/

/-- `dist.get(v, inf) + w == dist.get(dst, inf)` over the neighbour list. -/
def equalCostNextHops (g : Graph) (sw dst : Node) (dist : Node → Dist) : List Node :=
  ((neighborsG g sw).filter
      (fun q => decide (dist q.1 + (q.2 : Dist) = dist dst))).map Prod.fst

/-! ### `compute_path` -/

/-- The predecessor chain walk, as a pure list: `[v, prev v, ...]` down to the
first `None`.  Fuel-indexed; `none` means the fuel ran out. -/
def walkF (prev : Node → Option Node) : Nat → Node → Option (List Node)
  | 0, _ => none
  | f + 1, v =>
      match prev v with
      | none => some [v]
      | some u => (walkF prev f u).map (fun l => v :: l)

/-- The code's walk `while cur is not None: path.append(cur); cur = prev[cur]`,
with the strict `prev[cur]` dict access (keys of `prev` are the graph nodes):
`some (.error ())` is a `KeyError`, outer `none` is exhausted fuel. -/
def buildPath (g : Graph) (prev : Node → Option Node) :
    Nat → Node → Option (Except Unit (List Node))
  | 0, _ => none
  | f + 1, cur =>
      if cur ∈ nodesG g then
        match prev cur with
        | none => some (Except.ok [cur])
        | some u => (buildPath g prev f u).map (fun r => r.map (fun l => cur :: l))
      else some (Except.error ())

def walkFuel (g : Graph) (src : Node) : Nat := (uList g src).length + 1

/-- `compute_path(src, dst)`: `.error ()` is a `KeyError` (the `dist[dst]`
access only has keys `nodes ∪ {src}`, the walk's `prev[cur]` only the nodes),
`.ok none` is the unreachable result, `.ok (some p)` a path. -/
def computePath (g : Graph) (src dst : Node) : Except Unit (Option (List Node)) :=
  let st := dijkstra g src
  if dst ∈ nodesG g ∨ dst = src then
    if st.dist dst = ⊤ then Except.ok none
    else
      match buildPath g st.prev (walkFuel g src) dst with
      | some (Except.ok l) => Except.ok (some l.reverse)
      | _ => Except.error ()
  else Except.error ()

/-! ### Flow-table synthesis (`install_flows`) -/

inductive Priority where
  | normal
  | high
deriving DecidableEq, Repr

structure Entry where
  match_dst : Node
  action : List Node
  priority : Priority
  backup : Option (List Node)
deriving DecidableEq, Repr

abbrev Flow := Node × Node
abbrev FlowTable := List (Node × List Entry)

/-- Build one table entry: the two `for src, d in self.active_flows` loops that
escalate the priority and attach the backup. -/
def buildEntry (dst : Node) (primaries : List Node) (active critical : List Flow) :
    Entry :=
  let e0 : Entry := { match_dst := dst, action := primaries,
                      priority := Priority.normal, backup := none }
  let e1 := active.foldl
    (fun e p => if p.2 = dst then { e with priority := Priority.high } else e) e0
  active.foldl
    (fun e p =>
      if p ∈ critical ∧ primaries.length > 1
      then { e with backup := some (primaries.drop 1) } else e) e1

/-- `install_flows`.  `random.shuffle(primaries)` is modelled by the permutation
parameter `σ`, applied to each freshly computed ECMP list (theorems assume each
`σ sw dst l` is a permutation of `l`). -/
def installFlows (g : Graph) (active critical : List Flow)
    (σ : Node → Node → List Node → List Node) : FlowTable :=
  (nodesG g).map (fun sw =>
    let dist := (dijkstra g sw).dist
    (sw, (nodesG g).filterMap (fun dst =>
      if dst = sw ∨ dist dst = ⊤ then none
      else some (buildEntry dst (σ sw dst (equalCostNextHops g sw dst dist))
                  active critical))))

/-- `remove_link_and_reconfigure` (the timestamped print is I/O only). -/
def removeLinkAndReconfigure (g : Graph) (u v : Node) (active critical : List Flow)
    (σ : Node → Node → List Node → List Node) : Graph × FlowTable :=
  let g1 := removeLink g u v
  (g1, installFlows g1 active critical σ)

/-- The static critical-flow set `{('H2', 'S4')}` of `SDNController.__init__`. -/
def criticalFlows : List Flow := [("H2", "S4")]

/-! ### Topology operation sequences (for the symmetry invariant) -/

inductive TopOp where
  | addN (n : Node)
  | removeN (n : Node)
  | addL (u v : Node) (w : Weight)
  | removeL (u v : Node)

def applyOp (g : Graph) : TopOp → Graph
  | TopOp.addN n => addNode g n
  | TopOp.removeN n => removeNode g n
  | TopOp.addL u v w => addLink g u v w
  | TopOp.removeL u v => removeLink g u v

/-- A `Graph()` starts with `self.adj = {}`. -/
def applyOps (ops : List TopOp) : Graph := ops.foldl applyOp []

/-! ### Association-list lemmas -/

theorem mem_of_dictGet {α : Type} {l : List (Node × α)} {k : Node} {a : α}
    (h : dictGet l k = some a) : (k, a) ∈ l := by
  induction l with
  | nil => cases h
  | cons p t ih =>
      by_cases hp : p.1 = k
      · simp only [dictGet, hp, if_true, Option.some.injEq] at h
        have : p = (k, a) := by cases p; simp_all
        rw [← this]; exact List.mem_cons_self _ _
      · simp only [dictGet, hp, if_false] at h
        exact List.mem_cons_of_mem _ (ih h)

theorem dictGet_isSome_iff {α : Type} (l : List (Node × α)) (k : Node) :
    (dictGet l k).isSome = true ↔ k ∈ keysOf l := by
  induction l with
  | nil => simp [dictGet, keysOf]
  | cons p t ih =>
      by_cases hp : p.1 = k
      · simp [dictGet, hp, keysOf]
      · simp only [dictGet, hp, if_false, keysOf, List.map_cons, List.mem_cons]
        rw [show (List.map Prod.fst t) = keysOf t from rfl] at *
        rw [ih]
        constructor
        · exact fun h => Or.inr h
        · rintro (h | h)
          · exact absurd h.symm hp
          · exact h

theorem dictGet_eq_none_iff {α : Type} (l : List (Node × α)) (k : Node) :
    dictGet l k = none ↔ k ∉ keysOf l := by
  rw [← dictGet_isSome_iff]
  cases dictGet l k <;> simp

theorem dictGet_of_mem {α : Type} {l : List (Node × α)} (h : (keysOf l).Nodup)
    {k : Node} {a : α} (hm : (k, a) ∈ l) : dictGet l k = some a := by
  induction l with
  | nil => cases hm
  | cons p t ih =>
      rcases List.mem_cons.1 hm with h1 | h1
      · simp [dictGet, ← h1]
      · have hk : k ∈ keysOf t := List.mem_map.2 ⟨(k, a), h1, rfl⟩
        have hn := List.nodup_cons.1 (show (p.1 :: keysOf t).Nodup by simpa [keysOf] using h)
        have hp : p.1 ≠ k := by
          intro hc
          rw [hc] at hn
          exact hn.1 hk
        simp [dictGet, hp, ih hn.2 h1]

theorem keysOf_dictUpdate {α : Type} (l : List (Node × α)) (k : Node) (f : α → α) :
    keysOf (dictUpdate l k f) = keysOf l := by
  induction l with
  | nil => rfl
  | cons p t ih =>
      by_cases hp : p.1 = k <;>
        simpa [dictUpdate, hp, keysOf] using ih

theorem dictGet_dictUpdate_self {α : Type} (l : List (Node × α)) (k : Node) (f : α → α) :
    dictGet (dictUpdate l k f) k = (dictGet l k).map f := by
  induction l with
  | nil => rfl
  | cons p t ih =>
      by_cases hp : p.1 = k <;> simp [dictUpdate, dictGet, hp, ih]

theorem dictGet_dictUpdate_ne {α : Type} (l : List (Node × α)) (k k1 : Node) (f : α → α)
    (h : k1 ≠ k) : dictGet (dictUpdate l k f) k1 = dictGet l k1 := by
  induction l with
  | nil => rfl
  | cons p t ih =>
      by_cases hp : p.1 = k
      · have hpk : p.1 ≠ k1 := by rw [hp]; exact fun hc => h hc.symm
        simp [dictUpdate, dictGet, hp, hpk, h, Ne.symm h, ih]
      · by_cases hq : p.1 = k1 <;> simp [dictUpdate, dictGet, hp, hq, h, Ne.symm h, ih]

theorem keysOf_dictRemove_subset {α : Type} (l : List (Node × α)) (k : Node) :
    ∀ x ∈ keysOf (dictRemove l k), x ∈ keysOf l ∧ x ≠ k := by
  induction l with
  | nil => intro x hx; cases hx
  | cons p t ih =>
      intro x hx
      by_cases hp : p.1 = k
      · simp only [dictRemove, hp, if_true] at hx
        rcases ih x hx with ⟨h1, h2⟩
        exact ⟨by simp [keysOf]; exact Or.inr (by simpa [keysOf] using h1), h2⟩
      · simp only [dictRemove, hp, if_false, keysOf, List.map_cons, List.mem_cons] at hx
        rcases hx with h1 | h1
        · exact ⟨by simp [keysOf, h1], by rw [h1]; exact hp⟩
        · rcases ih x (by simpa [keysOf] using h1) with ⟨h2, h3⟩
          exact ⟨by simp [keysOf]; exact Or.inr (by simpa [keysOf] using h2), h3⟩

theorem mem_keysOf_dictRemove {α : Type} (l : List (Node × α)) (k x : Node)
    (hx : x ∈ keysOf l) (hxk : x ≠ k) : x ∈ keysOf (dictRemove l k) := by
  induction l with
  | nil => cases hx
  | cons p t ih =>
      rcases List.mem_cons.1 (show x ∈ p.1 :: keysOf t by simpa [keysOf] using hx) with h1 | h1
      · have hp : p.1 ≠ k := by rw [← h1]; exact hxk
        simp [dictRemove, hp, keysOf, h1]
      · by_cases hp : p.1 = k
        · simp only [dictRemove, hp, if_true]
          exact ih (by simpa [keysOf] using h1)
        · simp only [dictRemove, hp, if_false, keysOf, List.map_cons, List.mem_cons]
          exact Or.inr (by simpa [keysOf] using ih (by simpa [keysOf] using h1))

theorem keysOf_dictRemove_nodup {α : Type} (l : List (Node × α)) (k : Node)
    (h : (keysOf l).Nodup) : (keysOf (dictRemove l k)).Nodup := by
  induction l with
  | nil => exact List.nodup_nil
  | cons p t ih =>
      have hn := List.nodup_cons.1 (show (p.1 :: keysOf t).Nodup by simpa [keysOf] using h)
      by_cases hp : p.1 = k
      · simp only [dictRemove, hp, if_true]
        exact ih hn.2
      · simp only [dictRemove, hp, if_false, keysOf, List.map_cons]
        refine List.nodup_cons.2 ⟨?_, by simpa [keysOf] using ih hn.2⟩
        intro hc
        exact hn.1 ((keysOf_dictRemove_subset t k p.1 (by simpa [keysOf] using hc)).1)

theorem dictGet_dictRemove_self {α : Type} (l : List (Node × α)) (k : Node) :
    dictGet (dictRemove l k) k = none := by
  rw [dictGet_eq_none_iff]
  intro hc
  exact (keysOf_dictRemove_subset l k k hc).2 rfl

theorem dictGet_dictRemove_ne {α : Type} (l : List (Node × α)) (k k1 : Node)
    (h : k1 ≠ k) : dictGet (dictRemove l k) k1 = dictGet l k1 := by
  induction l with
  | nil => rfl
  | cons p t ih =>
      by_cases hp : p.1 = k
      · have hpk : p.1 ≠ k1 := by rw [hp]; exact fun hc => h hc.symm
        simp [dictRemove, dictGet, hp, hpk, h, Ne.symm h, ih]
      · by_cases hq : p.1 = k1 <;> simp [dictRemove, dictGet, hp, hq, h, Ne.symm h, ih]

theorem keysOf_dictSet_of_mem {α : Type} (l : List (Node × α)) (k : Node) (v : α)
    (h : k ∈ keysOf l) : keysOf (dictSet l k v) = keysOf l := by
  induction l with
  | nil => simp [keysOf] at h
  | cons p t ih =>
      by_cases hp : p.1 = k
      · simp [dictSet, hp, keysOf]
      · have hk : k ∈ keysOf t := by
          rcases List.mem_cons.1 (show k ∈ p.1 :: keysOf t by simpa [keysOf] using h)
            with h1 | h1
          · exact absurd h1.symm hp
          · exact h1
        simpa [dictSet, hp, keysOf] using ih hk

theorem keysOf_dictSet_of_not_mem {α : Type} (l : List (Node × α)) (k : Node) (v : α)
    (h : k ∉ keysOf l) : keysOf (dictSet l k v) = keysOf l ++ [k] := by
  induction l with
  | nil => rfl
  | cons p t ih =>
      have hp : p.1 ≠ k := by
        intro hc; exact h (by simp [keysOf, hc])
      have ht : k ∉ keysOf t := by
        intro hc
        exact h (by simp only [keysOf, List.map_cons, List.mem_cons]; exact Or.inr hc)
      simpa [dictSet, hp, keysOf] using ih ht

theorem dictGet_dictSet_self {α : Type} (l : List (Node × α)) (k : Node) (v : α) :
    dictGet (dictSet l k v) k = some v := by
  induction l with
  | nil => simp [dictSet, dictGet]
  | cons p t ih =>
      by_cases hp : p.1 = k <;> simp [dictSet, dictGet, hp, ih]

theorem dictGet_dictSet_ne {α : Type} (l : List (Node × α)) (k k1 : Node) (v : α)
    (h : k1 ≠ k) : dictGet (dictSet l k v) k1 = dictGet l k1 := by
  induction l with
  | nil => simp [dictSet, dictGet, Ne.symm h]
  | cons p t ih =>
      by_cases hp : p.1 = k
      · have hpk : p.1 ≠ k1 := by rw [hp]; exact fun hc => h hc.symm
        simp [dictSet, dictGet, hp, hpk, h, Ne.symm h]
      · by_cases hq : p.1 = k1 <;> simp [dictSet, dictGet, hp, hq, h, Ne.symm h, ih]

theorem dictGet_append {α : Type} (l1 l2 : List (Node × α)) (k : Node) :
    dictGet (l1 ++ l2) k =
      match dictGet l1 k with
      | some a => some a
      | none => dictGet l2 k := by
  induction l1 with
  | nil => simp [dictGet]
  | cons p t ih =>
      by_cases hp : p.1 = k <;> simp [dictGet, hp, ih]

/-! ### Graph-operation characterizations -/

/-- Symmetry of the adjacency, stated through lookups. -/
def Symm (g : Graph) : Prop :=
  ∀ a b wt, lookupEdge g a b = some wt → lookupEdge g b a = some wt

theorem neighborsG_eq_of_dictGet {g : Graph} {a : Node} {r : Adj}
    (h : dictGet g a = some r) : neighborsG g a = r := by
  simp [neighborsG, h]

theorem neighborsG_eq_nil_of_none {g : Graph} {a : Node}
    (h : dictGet g a = none) : neighborsG g a = [] := by
  simp [neighborsG, h]

theorem WF.rowNodup {g : Graph} (h : WF g) (a : Node) :
    (keysOf (neighborsG g a)).Nodup := by
  cases hg : dictGet g a with
  | none => simp [neighborsG_eq_nil_of_none hg, keysOf]
  | some r =>
      rw [neighborsG_eq_of_dictGet hg]
      exact h.2.1 (a, r) (mem_of_dictGet hg)

theorem WF.symmE {g : Graph} (h : WF g) : Symm g := by
  intro a b wt hab
  have hm : (b, wt) ∈ neighborsG g a := mem_of_dictGet hab
  cases hg : dictGet g a with
  | none => rw [neighborsG_eq_nil_of_none hg] at hm; cases hm
  | some r =>
      rw [neighborsG_eq_of_dictGet hg] at hm
      exact h.2.2 (a, r) (mem_of_dictGet hg) (b, wt) hm

theorem wf_of_parts {g : Graph} (h1 : (nodesG g).Nodup)
    (h2 : ∀ p ∈ g, (keysOf p.2).Nodup) (h3 : Symm g) : WF g := by
  refine ⟨h1, h2, ?_⟩
  intro p hp q hq
  have hget : dictGet g p.1 = some p.2 := dictGet_of_mem h1 (by cases p; exact hp)
  have : lookupEdge g p.1 q.1 = some q.2 := by
    rw [lookupEdge, neighborsG_eq_of_dictGet hget]
    exact dictGet_of_mem (h2 p hp) (by cases q; exact hq)
  exact h3 _ _ _ this

theorem keysOf_append {α : Type} (l1 l2 : List (Node × α)) :
    keysOf (l1 ++ l2) = keysOf l1 ++ keysOf l2 := by
  simp [keysOf]

theorem neighborsG_addNode (g : Graph) (n a : Node) :
    neighborsG (addNode g n) a = neighborsG g a := by
  unfold addNode
  by_cases hs : (dictGet g n).isSome = true
  · rw [if_pos hs]
  · rw [if_neg hs, neighborsG, neighborsG, dictGet_append]
    cases hg : dictGet g a with
    | some r => simp
    | none => by_cases hna : n = a <;> simp [dictGet, hna]

theorem lookupEdge_addNode (g : Graph) (n a b : Node) :
    lookupEdge (addNode g n) a b = lookupEdge g a b := by
  rw [lookupEdge, lookupEdge, neighborsG_addNode]

theorem nodesG_addNode_mem (g : Graph) (n : Node) : n ∈ nodesG (addNode g n) := by
  unfold addNode
  by_cases hs : (dictGet g n).isSome = true
  · rw [if_pos hs]
    exact (dictGet_isSome_iff g n).1 hs
  · rw [if_neg hs, nodesG, keysOf_append]
    simp [keysOf]

theorem nodesG_addNode_superset (g : Graph) (n a : Node) (h : a ∈ nodesG g) :
    a ∈ nodesG (addNode g n) := by
  unfold addNode
  by_cases hs : (dictGet g n).isSome = true
  · rw [if_pos hs]; exact h
  · rw [if_neg hs, nodesG, keysOf_append]
    exact List.mem_append.2 (Or.inl h)

theorem nodesG_addNode_nodup (g : Graph) (n : Node) (h : (nodesG g).Nodup) :
    (nodesG (addNode g n)).Nodup := by
  unfold addNode
  by_cases hs : (dictGet g n).isSome = true
  · rw [if_pos hs]; exact h
  · have hn : n ∉ nodesG g := fun hc => hs ((dictGet_isSome_iff g n).2 hc)
    rw [if_neg hs, nodesG, keysOf_append]
    refine List.Nodup.append h (by simp [keysOf]) ?_
    intro x hx hmem
    have : x = n := by simpa [keysOf] using hmem
    rw [this] at hx
    exact hn hx

theorem dictGet_isSome_addNode (g : Graph) (n a : Node) :
    (dictGet (addNode g n) a).isSome = true ↔ a = n ∨ (dictGet g a).isSome = true := by
  unfold addNode
  by_cases hs : (dictGet g n).isSome = true
  · rw [if_pos hs]
    constructor
    · exact fun h => Or.inr h
    · rintro (h | h)
      · rw [h]; exact hs
      · exact h
  · rw [if_neg hs, dictGet_isSome_iff, keysOf_append, List.mem_append]
    constructor
    · rintro (h | h)
      · exact Or.inr ((dictGet_isSome_iff g a).2 h)
      · simp [keysOf] at h
        exact Or.inl h
    · rintro (h | h)
      · exact Or.inr (by simp [keysOf, h])
      · exact Or.inl ((dictGet_isSome_iff g a).1 h)

theorem nodesG_dictUpdate (g : Graph) (k : Node) (f : Adj → Adj) :
    nodesG (dictUpdate g k f) = nodesG g := keysOf_dictUpdate g k f

theorem neighborsG_dictUpdate_ne (g : Graph) (k a : Node) (f : Adj → Adj)
    (h : a ≠ k) : neighborsG (dictUpdate g k f) a = neighborsG g a := by
  rw [neighborsG, neighborsG, dictGet_dictUpdate_ne _ _ _ _ h]

theorem neighborsG_dictUpdate_self_of_isSome (g : Graph) (k : Node) (f : Adj → Adj)
    (h : (dictGet g k).isSome = true) :
    neighborsG (dictUpdate g k f) k = f (neighborsG g k) := by
  rw [neighborsG, neighborsG, dictGet_dictUpdate_self]
  cases hg : dictGet g k with
  | none => rw [hg] at h; cases h
  | some r => simp

theorem neighborsG_dictUpdate_self_of_fix (g : Graph) (k : Node) (f : Adj → Adj)
    (h : f [] = []) :
    neighborsG (dictUpdate g k f) k = f (neighborsG g k) := by
  rw [neighborsG, neighborsG, dictGet_dictUpdate_self]
  cases hg : dictGet g k with
  | none => simp [h]
  | some r => simp

theorem keysOf_dictSet_nodup {α : Type} (l : List (Node × α)) (k : Node) (v : α)
    (h : (keysOf l).Nodup) : (keysOf (dictSet l k v)).Nodup := by
  by_cases hk : k ∈ keysOf l
  · rw [keysOf_dictSet_of_mem l k v hk]; exact h
  · rw [keysOf_dictSet_of_not_mem l k v hk]
    refine List.Nodup.append h (by simp) ?_
    intro x hx hmem
    have : x = k := by simpa using hmem
    rw [this] at hx
    exact hk hx

/-- Full lookup characterization of `add_link`. -/
theorem lookupEdge_addLink (g : Graph) (u v : Node) (w : Weight) (a b : Node) :
    lookupEdge (addLink g u v w) a b =
      if (a = u ∧ b = v) ∨ (a = v ∧ b = u) then some w else lookupEdge g a b := by
  have hg1u : (dictGet (addNode (addNode g u) v) u).isSome = true := by
    rw [dictGet_isSome_addNode]
    right
    rw [dictGet_isSome_addNode]
    left
    rfl
  have hg1v : (dictGet (addNode (addNode g u) v) v).isSome = true := by
    rw [dictGet_isSome_addNode]
    left
    rfl
  have hg2v : (dictGet (dictUpdate (addNode (addNode g u) v) u
      (fun m => dictSet m v w)) v).isSome = true := by
    rw [dictGet_isSome_iff, keysOf_dictUpdate, ← dictGet_isSome_iff]
    exact hg1v
  have hnb1 : ∀ x, neighborsG (addNode (addNode g u) v) x = neighborsG g x := by
    intro x
    rw [neighborsG_addNode, neighborsG_addNode]
  unfold addLink
  by_cases hav : a = v
  · subst hav
    rw [lookupEdge, neighborsG_dictUpdate_self_of_isSome _ _ _ hg2v]
    by_cases hbu : b = u
    · subst hbu
      rw [dictGet_dictSet_self]
      simp
    · rw [dictGet_dictSet_ne _ _ _ _ hbu]
      by_cases hau : a = u
      · subst hau
        rw [neighborsG_dictUpdate_self_of_isSome _ _ _ hg1u, hnb1]
        have hbv : b ≠ a := hbu
        rw [dictGet_dictSet_ne _ _ _ _ hbv]
        simp [lookupEdge, hbu, hbv]
      · rw [neighborsG_dictUpdate_ne _ _ _ _ (fun hc => hau hc), hnb1]
        simp [lookupEdge, hbu, fun hc : a = u => hau hc]
  · rw [lookupEdge, neighborsG_dictUpdate_ne _ _ _ _ hav]
    by_cases hau : a = u
    · subst hau
      rw [neighborsG_dictUpdate_self_of_isSome _ _ _ hg1u, hnb1]
      by_cases hbv : b = v
      · subst hbv
        rw [dictGet_dictSet_self]
        simp
      · rw [dictGet_dictSet_ne _ _ _ _ hbv]
        simp [lookupEdge, hbv, fun hc : a = v => hav hc]
    · rw [neighborsG_dictUpdate_ne _ _ _ _ hau, hnb1]
      simp [lookupEdge, hau, hav]

theorem nodesG_addLink_iff (g : Graph) (u v : Node) (w : Weight) (x : Node) :
    x ∈ nodesG (addLink g u v w) ↔ x ∈ nodesG g ∨ x = u ∨ x = v := by
  unfold addLink
  rw [nodesG, keysOf_dictUpdate, keysOf_dictUpdate]
  have h1 := dictGet_isSome_addNode (addNode g u) v x
  have h2 := dictGet_isSome_addNode g u x
  rw [← dictGet_isSome_iff, h1, h2, dictGet_isSome_iff]
  tauto

theorem nodesG_addLink_nodup (g : Graph) (u v : Node) (w : Weight)
    (h : (nodesG g).Nodup) : (nodesG (addLink g u v w)).Nodup := by
  unfold addLink
  rw [nodesG, keysOf_dictUpdate, keysOf_dictUpdate]
  exact nodesG_addNode_nodup _ _ (nodesG_addNode_nodup _ _ h)

theorem rowNodup_addLink (g : Graph) (u v : Node) (w : Weight)
    (h : ∀ x, (keysOf (neighborsG g x)).Nodup) :
    ∀ x, (keysOf (neighborsG (addLink g u v w) x)).Nodup := by
  intro x
  have hg1u : (dictGet (addNode (addNode g u) v) u).isSome = true := by
    rw [dictGet_isSome_addNode]
    right
    rw [dictGet_isSome_addNode]
    left
    rfl
  have hg2v : (dictGet (dictUpdate (addNode (addNode g u) v) u
      (fun m => dictSet m v w)) v).isSome = true := by
    rw [dictGet_isSome_iff, keysOf_dictUpdate, ← dictGet_isSome_iff]
    rw [dictGet_isSome_addNode]
    left
    rfl
  have hnb1 : ∀ y, neighborsG (addNode (addNode g u) v) y = neighborsG g y := by
    intro y
    rw [neighborsG_addNode, neighborsG_addNode]
  unfold addLink
  by_cases hxv : x = v
  · subst hxv
    rw [neighborsG_dictUpdate_self_of_isSome _ _ _ hg2v]
    apply keysOf_dictSet_nodup
    by_cases hxu : x = u
    · subst hxu
      rw [neighborsG_dictUpdate_self_of_isSome _ _ _ hg1u, hnb1]
      exact keysOf_dictSet_nodup _ _ _ (h x)
    · rw [neighborsG_dictUpdate_ne _ _ _ _ hxu, hnb1]
      exact h x
  · rw [neighborsG_dictUpdate_ne _ _ _ _ hxv]
    by_cases hxu : x = u
    · subst hxu
      rw [neighborsG_dictUpdate_self_of_isSome _ _ _ hg1u, hnb1]
      exact keysOf_dictSet_nodup _ _ _ (h x)
    · rw [neighborsG_dictUpdate_ne _ _ _ _ hxu, hnb1]
      exact h x

/-- Full lookup characterization of `remove_link`. -/
theorem lookupEdge_removeLink (g : Graph) (u v : Node) (a b : Node) :
    lookupEdge (removeLink g u v) a b =
      if (a = u ∧ b = v) ∨ (a = v ∧ b = u) then none else lookupEdge g a b := by
  have hfix : ∀ k : Node, dictRemove ([] : Adj) k = [] := fun _ => rfl
  unfold removeLink
  by_cases hav : a = v
  · subst hav
    rw [lookupEdge, neighborsG_dictUpdate_self_of_fix _ _ _ (hfix _)]
    by_cases hbu : b = u
    · subst hbu
      rw [dictGet_dictRemove_self]
      simp
    · rw [dictGet_dictRemove_ne _ _ _ hbu]
      by_cases hau : a = u
      · subst hau
        rw [neighborsG_dictUpdate_self_of_fix _ _ _ (hfix _)]
        have hbv : b ≠ a := hbu
        rw [dictGet_dictRemove_ne _ _ _ hbv]
        simp [lookupEdge, hbu, hbv]
      · rw [neighborsG_dictUpdate_ne _ _ _ _ (fun hc => hau hc)]
        simp [lookupEdge, hbu, fun hc : a = u => hau hc]
  · rw [lookupEdge, neighborsG_dictUpdate_ne _ _ _ _ hav]
    by_cases hau : a = u
    · subst hau
      rw [neighborsG_dictUpdate_self_of_fix _ _ _ (hfix _)]
      by_cases hbv : b = v
      · subst hbv
        rw [dictGet_dictRemove_self]
        simp
      · rw [dictGet_dictRemove_ne _ _ _ hbv]
        simp [lookupEdge, hbv, fun hc : a = v => hav hc]
    · rw [neighborsG_dictUpdate_ne _ _ _ _ hau]
      simp [lookupEdge, hau, hav]

theorem nodesG_removeLink (g : Graph) (u v : Node) :
    nodesG (removeLink g u v) = nodesG g := by
  unfold removeLink
  rw [nodesG, keysOf_dictUpdate, keysOf_dictUpdate]
  rfl

theorem rowNodup_removeLink (g : Graph) (u v : Node)
    (h : ∀ x, (keysOf (neighborsG g x)).Nodup) :
    ∀ x, (keysOf (neighborsG (removeLink g u v) x)).Nodup := by
  intro x
  have hfix : ∀ k : Node, dictRemove ([] : Adj) k = [] := fun _ => rfl
  unfold removeLink
  by_cases hxv : x = v
  · subst hxv
    rw [neighborsG_dictUpdate_self_of_fix _ _ _ (hfix _)]
    apply keysOf_dictRemove_nodup
    by_cases hxu : x = u
    · subst hxu
      rw [neighborsG_dictUpdate_self_of_fix _ _ _ (hfix _)]
      exact keysOf_dictRemove_nodup _ _ (h x)
    · rw [neighborsG_dictUpdate_ne _ _ _ _ hxu]
      exact h x
  · rw [neighborsG_dictUpdate_ne _ _ _ _ hxv]
    by_cases hxu : x = u
    · subst hxu
      rw [neighborsG_dictUpdate_self_of_fix _ _ _ (hfix _)]
      exact keysOf_dictRemove_nodup _ _ (h x)
    · rw [neighborsG_dictUpdate_ne _ _ _ _ hxu]
      exact h x

/-! ### `remove_node` characterization -/

theorem keysOf_foldRemove (nbrs : Adj) (n : Node) (g : Graph) :
    keysOf (nbrs.foldl (fun acc p => dictUpdate acc p.1 (fun m => dictRemove m n)) g)
      = keysOf g := by
  induction nbrs generalizing g with
  | nil => rfl
  | cons q t ih =>
      rw [List.foldl_cons, ih, keysOf_dictUpdate]

theorem dictGet_foldRemove (nbrs : Adj) (n : Node) (g : Graph) (a : Node)
    (h : (keysOf nbrs).Nodup) :
    dictGet (nbrs.foldl (fun acc p => dictUpdate acc p.1 (fun m => dictRemove m n)) g) a
      = if a ∈ keysOf nbrs then (dictGet g a).map (fun m => dictRemove m n)
        else dictGet g a := by
  induction nbrs generalizing g with
  | nil => simp [keysOf]
  | cons q t ih =>
      have hn := List.nodup_cons.1 (show (q.1 :: keysOf t).Nodup by simpa [keysOf] using h)
      rw [List.foldl_cons, ih _ hn.2]
      have hkeys : keysOf (q :: t) = q.1 :: keysOf t := rfl
      by_cases ha : a = q.1
      · have hat : a ∉ keysOf t := by rw [ha]; exact hn.1
        rw [if_neg hat, if_pos (by rw [hkeys]; exact List.mem_cons.2 (Or.inl ha)),
          ha, dictGet_dictUpdate_self]
      · rw [dictGet_dictUpdate_ne _ _ _ _ ha]
        by_cases hat : a ∈ keysOf t
        · rw [if_pos hat, if_pos (by rw [hkeys]; exact List.mem_cons.2 (Or.inr hat))]
        · rw [if_neg hat, if_neg (by
            rw [hkeys]
            intro hc
            rcases List.mem_cons.1 hc with h1 | h1
            · exact ha h1
            · exact hat h1)]

theorem nodesG_removeNode_iff (g : Graph) (n x : Node) :
    x ∈ nodesG (removeNode g n) ↔ x ∈ nodesG g ∧ x ≠ n := by
  unfold removeNode
  cases hgn : dictGet g n with
  | none =>
      have hn : n ∉ nodesG g := (dictGet_eq_none_iff g n).1 hgn
      constructor
      · intro h
        exact ⟨h, fun hc => hn (hc ▸ h)⟩
      · exact fun h => h.1
  | some nbrs =>
      constructor
      · intro h
        have h2 := keysOf_dictRemove_subset _ n x h
        rw [keysOf_foldRemove] at h2
        exact h2
      · intro h
        apply mem_keysOf_dictRemove _ _ _ _ h.2
        rw [keysOf_foldRemove]
        exact h.1

theorem nodesG_removeNode_nodup (g : Graph) (n : Node) (h : (nodesG g).Nodup) :
    (nodesG (removeNode g n)).Nodup := by
  unfold removeNode
  cases hgn : dictGet g n with
  | none => exact h
  | some nbrs =>
      apply keysOf_dictRemove_nodup
      rw [keysOf_foldRemove]
      exact h

/-- Full lookup characterization of `remove_node` on a well-formed graph. -/
theorem lookupEdge_removeNode (g : Graph) (n : Node) (hWF : WF g) (a b : Node) :
    lookupEdge (removeNode g n) a b =
      if a = n ∨ b = n then none else lookupEdge g a b := by
  have hsymm := hWF.symmE
  unfold removeNode
  cases hgn : dictGet g n with
  | none =>
      have hnbn : neighborsG g n = [] := neighborsG_eq_nil_of_none hgn
      by_cases han : a = n
      · rw [if_pos (Or.inl han), han, lookupEdge, hnbn]
        rfl
      · by_cases hbn : b = n
        · rw [if_pos (Or.inr hbn), hbn]
          cases hab : lookupEdge g a n with
          | none => rfl
          | some wt =>
              have := hsymm _ _ _ hab
              rw [lookupEdge, hnbn] at this
              cases this
        · rw [if_neg (by tauto)]
  | some nbrs =>
      have hrow : (keysOf nbrs).Nodup := hWF.2.1 (n, nbrs) (mem_of_dictGet hgn)
      by_cases han : a = n
      · rw [if_pos (Or.inl han), han, lookupEdge,
          neighborsG_eq_nil_of_none (dictGet_dictRemove_self _ _)]
        rfl
      · have hga : dictGet (dictRemove (nbrs.foldl
            (fun acc p => dictUpdate acc p.1 (fun m => dictRemove m n)) g) n) a
            = dictGet (nbrs.foldl
              (fun acc p => dictUpdate acc p.1 (fun m => dictRemove m n)) g) a :=
          dictGet_dictRemove_ne _ _ _ han
        rw [lookupEdge, neighborsG, hga, dictGet_foldRemove _ _ _ _ hrow]
        by_cases hak : a ∈ keysOf nbrs
        · rw [if_pos hak]
          cases hgna : dictGet g a with
          | none =>
              rcases List.mem_map.1 hak with ⟨q, hq, hq1⟩
              have := hWF.2.2 (n, nbrs) (mem_of_dictGet hgn) q hq
              rw [show q.1 = a from hq1, lookupEdge,
                neighborsG_eq_nil_of_none hgna] at this
              cases this
          | some r =>
              by_cases hbn : b = n
              · rw [if_pos (Or.inr hbn), hbn]
                exact dictGet_dictRemove_self r n
              · rw [if_neg (by tauto)]
                show dictGet (dictRemove r n) b = lookupEdge g a b
                rw [dictGet_dictRemove_ne _ _ _ hbn, lookupEdge,
                  neighborsG_eq_of_dictGet hgna]
        · rw [if_neg hak]
          by_cases hbn : b = n
          · rw [if_pos (Or.inr hbn), hbn]
            cases hab : dictGet ((dictGet g a).getD []) n with
            | none => rfl
            | some wt =>
                have : lookupEdge g a n = some wt := hab
                have h2 := hsymm _ _ _ this
                rw [lookupEdge, neighborsG_eq_of_dictGet hgn] at h2
                exact absurd (List.mem_map.2 ⟨(a, wt), mem_of_dictGet h2, rfl⟩) hak
          · rw [if_neg (by tauto)]
            rfl

theorem rowNodup_removeNode (g : Graph) (n : Node) (hWF : WF g) :
    ∀ x, (keysOf (neighborsG (removeNode g n) x)).Nodup := by
  intro x
  unfold removeNode
  cases hgn : dictGet g n with
  | none => exact hWF.rowNodup x
  | some nbrs =>
      have hrow : (keysOf nbrs).Nodup := hWF.2.1 (n, nbrs) (mem_of_dictGet hgn)
      by_cases hxn : x = n
      · rw [hxn, neighborsG_eq_nil_of_none (dictGet_dictRemove_self _ _)]
        exact List.nodup_nil
      · rw [neighborsG, dictGet_dictRemove_ne _ _ _ hxn,
          dictGet_foldRemove _ _ _ _ hrow]
        by_cases hxk : x ∈ keysOf nbrs
        · rw [if_pos hxk]
          cases hgx : dictGet g x with
          | none => exact List.nodup_nil
          | some r =>
              show (keysOf (dictRemove r n)).Nodup
              exact keysOf_dictRemove_nodup _ _
                (by rw [← neighborsG_eq_of_dictGet hgx]; exact hWF.rowNodup x)
        · rw [if_neg hxk]
          exact hWF.rowNodup x

/-! ### Well-formedness preservation -/

theorem rows_of_rowNodup {g : Graph} (h1 : (nodesG g).Nodup)
    (h2 : ∀ a, (keysOf (neighborsG g a)).Nodup) : ∀ p ∈ g, (keysOf p.2).Nodup := by
  intro p hp
  have : dictGet g p.1 = some p.2 := dictGet_of_mem h1 (by cases p; exact hp)
  rw [← neighborsG_eq_of_dictGet this]
  exact h2 p.1

theorem WF_addNode (g : Graph) (n : Node) (h : WF g) : WF (addNode g n) := by
  apply wf_of_parts (nodesG_addNode_nodup g n h.1)
  · apply rows_of_rowNodup (nodesG_addNode_nodup g n h.1)
    intro a
    rw [neighborsG_addNode]
    exact h.rowNodup a
  · intro a b wt hab
    rw [lookupEdge_addNode] at hab
    rw [lookupEdge_addNode]
    exact h.symmE _ _ _ hab

theorem WF_addLink (g : Graph) (u v : Node) (w : Weight) (h : WF g) :
    WF (addLink g u v w) := by
  apply wf_of_parts (nodesG_addLink_nodup g u v w h.1)
  · exact rows_of_rowNodup (nodesG_addLink_nodup g u v w h.1)
      (rowNodup_addLink g u v w h.rowNodup)
  · intro a b wt hab
    rw [lookupEdge_addLink] at hab
    rw [lookupEdge_addLink]
    by_cases hc : (a = u ∧ b = v) ∨ (a = v ∧ b = u)
    · rw [if_pos (by tauto)]
      rw [if_pos hc] at hab
      exact hab
    · rw [if_neg (by tauto)]
      rw [if_neg hc] at hab
      exact h.symmE _ _ _ hab

theorem WF_removeLink (g : Graph) (u v : Node) (h : WF g) : WF (removeLink g u v) := by
  have hnodes : (nodesG (removeLink g u v)).Nodup := by
    rw [nodesG_removeLink]; exact h.1
  apply wf_of_parts hnodes
  · exact rows_of_rowNodup hnodes (rowNodup_removeLink g u v h.rowNodup)
  · intro a b wt hab
    rw [lookupEdge_removeLink] at hab
    rw [lookupEdge_removeLink]
    by_cases hc : (a = u ∧ b = v) ∨ (a = v ∧ b = u)
    · rw [if_pos hc] at hab
      cases hab
    · rw [if_neg (by tauto)]
      rw [if_neg hc] at hab
      exact h.symmE _ _ _ hab

theorem WF_removeNode (g : Graph) (n : Node) (h : WF g) : WF (removeNode g n) := by
  apply wf_of_parts (nodesG_removeNode_nodup g n h.1)
  · exact rows_of_rowNodup (nodesG_removeNode_nodup g n h.1) (rowNodup_removeNode g n h)
  · intro a b wt hab
    rw [lookupEdge_removeNode g n h] at hab
    rw [lookupEdge_removeNode g n h]
    by_cases hc : a = n ∨ b = n
    · rw [if_pos hc] at hab
      cases hab
    · rw [if_neg (by tauto)]
      rw [if_neg hc] at hab
      exact h.symmE _ _ _ hab

theorem WF_empty : WF ([] : Graph) := by
  refine ⟨List.nodup_nil, ?_, ?_⟩ <;> intro p hp <;> cases hp

theorem WF_applyOp (g : Graph) (op : TopOp) (h : WF g) : WF (applyOp g op) := by
  cases op with
  | addN n => exact WF_addNode g n h
  | removeN n => exact WF_removeNode g n h
  | addL u v w => exact WF_addLink g u v w h
  | removeL u v => exact WF_removeLink g u v h

theorem WF_applyOps (ops : List TopOp) : WF (applyOps ops) := by
  have : ∀ g, WF g → WF (ops.foldl applyOp g) := by
    induction ops with
    | nil => exact fun g h => h
    | cons op t ih => exact fun g h => ih _ (WF_applyOp g op h)
  exact this [] WF_empty

/-- Clean removal on a well-formed graph: the node is gone and nothing
references it. -/
theorem removeNode_clean (g : Graph) (n : Node) (hWF : WF g) :
    n ∉ nodesG (removeNode g n) ∧ ∀ p ∈ removeNode g n, dictGet p.2 n = none := by
  constructor
  · intro hc
    exact ((nodesG_removeNode_iff g n n).1 hc).2 rfl
  · intro p hp
    have hwf2 := WF_removeNode g n hWF
    have hget : dictGet (removeNode g n) p.1 = some p.2 :=
      dictGet_of_mem hwf2.1 (by cases p; exact hp)
    have : lookupEdge (removeNode g n) p.1 n = none := by
      rw [lookupEdge_removeNode g n hWF, if_pos (Or.inr rfl)]
    rw [lookupEdge, neighborsG_eq_of_dictGet hget] at this
    exact this

/-! ### Dijkstra: measure and helper lemmas -/

/-- Weight mass of the already-touched rows: every finite tentative distance
stays below it. -/
def wTouched (g : Graph) (dist : Node → Dist) : Nat :=
  (g.map (fun p => if dist p.1 ≠ ⊤ then rowWeight p.2 else 0)).sum

/-- Numeric collapse of a tentative distance, used in the termination measure. -/
def cap (B : Nat) (d : Dist) : Nat := min (d.untop' (B + 1)) (B + 1)

/-- Termination measure of the Dijkstra loop: queue length plus capped
distances; it strictly decreases at every iteration. -/
def phi (g : Graph) (src : Node) (st : DState) : Nat :=
  st.pq.length + ((uList g src).map (fun v => cap (wTotal g) (st.dist v))).sum

theorem src_mem_uList (g : Graph) (src : Node) : src ∈ uList g src := by
  rw [uList, List.mem_dedup]
  exact List.mem_cons_self _ _

theorem key_mem_uList (g : Graph) (src : Node) {p : Node × Adj} (hp : p ∈ g) :
    p.1 ∈ uList g src := by
  rw [uList, List.mem_dedup]
  apply List.mem_cons_of_mem
  rw [List.mem_flatMap]
  exact ⟨p, hp, List.mem_cons_self _ _⟩

theorem nbr_mem_uList (g : Graph) (src u : Node) {q : Node × Weight}
    (hq : q ∈ neighborsG g u) : q.1 ∈ uList g src := by
  cases hg : dictGet g u with
  | none => rw [neighborsG_eq_nil_of_none hg] at hq; cases hq
  | some r =>
      rw [neighborsG_eq_of_dictGet hg] at hq
      rw [uList, List.mem_dedup]
      apply List.mem_cons_of_mem
      rw [List.mem_flatMap]
      refine ⟨(u, r), mem_of_dictGet hg, ?_⟩
      exact List.mem_cons_of_mem _ (List.mem_map.2 ⟨q, hq, rfl⟩)

theorem uList_nodup (g : Graph) (src : Node) : (uList g src).Nodup :=
  List.nodup_dedup _

theorem wTouched_le_wTotal (g : Graph) (dist : Node → Dist) :
    wTouched g dist ≤ wTotal g := by
  apply List.sum_le_sum
  intro p _
  by_cases h : dist p.1 ≠ ⊤ <;> simp [h]

theorem cap_le (B : Nat) (d : Dist) : cap B d ≤ B + 1 := min_le_right _ _

theorem cap_coe (B n : Nat) : cap B ((n : Nat) : Dist) = min n (B + 1) := rfl

theorem cap_top (B : Nat) : cap B ⊤ = B + 1 := by
  rw [cap, show WithTop.untop' (B + 1) (⊤ : Dist) = B + 1 from rfl, min_self]

theorem cap_lt_cap (B n : Nat) (d2 : Dist) (hn : n ≤ B) (hlt : ((n : Nat) : Dist) < d2) :
    cap B ((n : Nat) : Dist) < cap B d2 := by
  rw [cap_coe, min_eq_left (Nat.le_succ_of_le hn)]
  cases d2 with
  | none =>
      rw [show cap B none = cap B ⊤ from rfl, cap_top]
      exact Nat.lt_succ_of_le hn
  | some m =>
      rw [show cap B (some m) = cap B ((m : Nat) : Dist) from rfl, cap_coe]
      have hm : n < m := by
        exact_mod_cast (show ((n : Nat) : Dist) < ((m : Nat) : Dist) from hlt)
      exact lt_min hm (Nat.lt_succ_of_le hn)

theorem capSum_update (B : Nat) (l : List Node) (hl : l.Nodup) (dist : Node → Dist)
    (v : Node) (hv : v ∈ l) (nd : Dist) :
    (l.map (fun x => cap B (if x = v then nd else dist x))).sum + cap B (dist v)
      = (l.map (fun x => cap B (dist x))).sum + cap B nd := by
  induction l with
  | nil => cases hv
  | cons a t ih =>
      have hn := List.nodup_cons.1 hl
      rcases List.mem_cons.1 hv with h1 | h1
      · have ht : ∀ x ∈ t, (fun x => cap B (if x = v then nd else dist x)) x
            = (fun x => cap B (dist x)) x := by
          intro x hx
          have hxv : x ≠ v := fun hc => hn.1 (by rw [h1.symm.trans hc.symm]; exact hx)
          simp [hxv]
        rw [List.map_cons, List.map_cons, List.map_congr_left ht, List.sum_cons,
          List.sum_cons, if_pos h1.symm, h1]
        omega
      · have ha : a ≠ v := fun hc => hn.1 (by rw [hc]; exact h1)
        rw [List.map_cons, List.map_cons, List.sum_cons, List.sum_cons, if_neg ha]
        have := ih hn.2 h1
        omega

/-! ### `extractMin` -/

theorem extractMin_eq_none_iff (l : List (Nat × Node)) :
    extractMin l = none ↔ l = [] := by
  cases l with
  | nil => simp [extractMin]
  | cons a rest =>
      constructor
      · intro h
        exfalso
        rw [extractMin] at h
        cases he : extractMin rest with
        | none => rw [he] at h; cases h
        | some p =>
            rcases p with ⟨m, rest1⟩
            rw [he] at h
            have h2 : (if pqLe a m = true then some (a, rest)
                else some (m, a :: rest1)) = (none : Option ((Nat × Node) × List (Nat × Node))) := h
            by_cases hle : pqLe a m = true
            · rw [if_pos hle] at h2; cases h2
            · rw [if_neg hle] at h2; cases h2
      · intro h; cases h

theorem extractMin_perm (l : List (Nat × Node)) (m : Nat × Node)
    (rest : List (Nat × Node)) (h : extractMin l = some (m, rest)) :
    l.Perm (m :: rest) := by
  induction l generalizing m rest with
  | nil => cases h
  | cons a t ih =>
      rw [extractMin] at h
      cases he : extractMin t with
      | none =>
          rw [he] at h
          have ht := (extractMin_eq_none_iff t).1 he
          subst ht
          rw [Option.some_inj, Prod.mk.injEq] at h
          rw [← h.1, ← h.2]
      | some p =>
          rcases p with ⟨m1, rest1⟩
          rw [he] at h
          have h2 : (if pqLe a m1 = true then some (a, t)
              else some (m1, a :: rest1)) = some (m, rest) := h
          by_cases hle : pqLe a m1 = true
          · rw [if_pos hle, Option.some_inj, Prod.mk.injEq] at h2
            rw [← h2.1, ← h2.2]
          · rw [if_neg hle, Option.some_inj, Prod.mk.injEq] at h2
            have hperm := ih m1 rest1 he
            rw [← h2.1, ← h2.2]
            exact (hperm.cons a).trans (List.Perm.swap m1 a rest1)

/-! ### `walkF` chain lemmas -/

theorem walkF_succ_none {prev : Node → Option Node} {v : Node} (f : Nat)
    (hp : prev v = none) : walkF prev (f + 1) v = some [v] := by
  rw [walkF, hp]

theorem walkF_succ_some {prev : Node → Option Node} {v u : Node} (f : Nat)
    (hp : prev v = some u) :
    walkF prev (f + 1) v = (walkF prev f u).map (fun l => v :: l) := by
  rw [walkF, hp]

theorem walkF_isSome_iff (prev : Node → Option Node) (f : Nat) (v : Node) :
    (walkF prev f v).isSome = true ↔ ∃ m, walkF prev f v = some m := by
  cases h : walkF prev f v <;> simp [h]

theorem walkF_dist_le (dist : Node → Dist) (prev : Node → Option Node)
    (hmono : ∀ x y, prev x = some y → dist y ≤ dist x) :
    ∀ f v m, walkF prev f v = some m → ∀ z ∈ m, dist z ≤ dist v := by
  intro f
  induction f with
  | zero => intro v m h _ _; cases h
  | succ f ih =>
      intro v m h z hz
      cases hp : prev v with
      | none =>
          rw [walkF_succ_none f hp, Option.some_inj] at h
          rw [← h] at hz
          rcases List.mem_singleton.1 hz with rfl
          exact le_refl _
      | some u =>
          rw [walkF_succ_some f hp] at h
          cases hw : walkF prev f u with
          | none => rw [hw] at h; cases h
          | some m1 =>
              rw [hw] at h
              replace h : v :: m1 = m := Option.some_inj.1 h
              rw [← h] at hz
              rcases List.mem_cons.1 hz with rfl | hz1
              · exact le_refl _
              · exact le_trans (ih u m1 hw z hz1) (hmono v u hp)

theorem walkF_update_avoid (prev : Node → Option Node) (v : Node) (nv : Option Node) :
    ∀ f x m, walkF prev f x = some m → (∀ z ∈ m, z ≠ v) →
      walkF (fun y => if y = v then nv else prev y) f x = some m := by
  intro f
  induction f with
  | zero => intro x m h; cases h
  | succ f ih =>
      intro x m h hav
      have hxv : x ≠ v := by
        apply hav
        cases hp : prev x with
        | none =>
            rw [walkF_succ_none f hp, Option.some_inj] at h
            rw [← h]
            simp
        | some u =>
            rw [walkF_succ_some f hp] at h
            cases hw : walkF prev f u with
            | none => rw [hw] at h; cases h
            | some m1 =>
                rw [hw] at h
                replace h : x :: m1 = m := Option.some_inj.1 h
                rw [← h]
                simp
      cases hp : prev x with
      | none =>
          rw [walkF_succ_none f hp, Option.some_inj] at h
          rw [walkF_succ_none f (by rw [if_neg hxv]; exact hp), Option.some_inj]
          exact h
      | some u =>
          rw [walkF_succ_some f hp] at h
          cases hw : walkF prev f u with
          | none => rw [hw] at h; cases h
          | some m1 =>
              rw [hw] at h
              replace h : x :: m1 = m := Option.some_inj.1 h
              have hm1 : ∀ z ∈ m1, z ≠ v := by
                intro z hz
                apply hav
                rw [← h]
                exact List.mem_cons_of_mem _ hz
              rw [walkF_succ_some f (by rw [if_neg hxv]; exact hp),
                ih u m1 hw hm1]
              show some (x :: m1) = some m
              rw [h]

theorem term_update (prev : Node → Option Node) (u v : Node)
    (hterm : ∀ x, ∃ f, (walkF prev f x).isSome = true)
    (hu : ∃ f m, walkF prev f u = some m ∧ ∀ z ∈ m, z ≠ v) :
    ∀ x, ∃ f, (walkF (fun y => if y = v then some u else prev y) f x).isSome = true := by
  rcases hu with ⟨f0, m0, hm0, hav⟩
  have hu2 : walkF (fun y => if y = v then some u else prev y) f0 u = some m0 :=
    walkF_update_avoid prev v (some u) f0 u m0 hm0 hav
  have aux : ∀ f x, (walkF prev f x).isSome = true →
      ∃ f2, (walkF (fun y => if y = v then some u else prev y) f2 x).isSome = true := by
    intro f
    induction f with
    | zero => intro x h; rw [walkF] at h; cases h
    | succ f ih =>
        intro x h
        by_cases hxv : x = v
        · refine ⟨f0 + 1, ?_⟩
          rw [walkF_succ_some f0 (by rw [if_pos hxv]), hu2]
          rfl
        · cases hp : prev x with
          | none =>
              refine ⟨1, ?_⟩
              rw [show (1 : Nat) = 0 + 1 from rfl,
                walkF_succ_none 0 (by rw [if_neg hxv]; exact hp)]
              rfl
          | some y =>
              rw [walkF_succ_some f hp] at h
              cases hw : walkF prev f y with
              | none => rw [hw] at h; cases h
              | some m1 =>
                  rcases ih y (by rw [hw]; rfl) with ⟨fy, hfy⟩
                  refine ⟨fy + 1, ?_⟩
                  rw [walkF_succ_some fy (by rw [if_neg hxv]; exact hp)]
                  rcases (walkF_isSome_iff _ _ _).1 hfy with ⟨m2, hm2⟩
                  rw [hm2]
                  rfl
  intro x
  rcases hterm x with ⟨f, hf⟩
  exact aux f x hf

/-! ### `wTouched` lemmas -/

theorem wTouched_mono (g : Graph) (dist1 dist2 : Node → Dist)
    (h : ∀ y, dist1 y ≠ ⊤ → dist2 y ≠ ⊤) : wTouched g dist1 ≤ wTouched g dist2 := by
  apply List.sum_le_sum
  intro p _
  by_cases h1 : dist1 p.1 ≠ ⊤
  · rw [if_pos h1, if_pos (h p.1 h1)]
  · rw [if_neg h1]
    exact Nat.zero_le _

theorem wTouched_congr (g : Graph) (dist1 dist2 : Node → Dist)
    (h : ∀ y, dist1 y ≠ ⊤ ↔ dist2 y ≠ ⊤) : wTouched g dist1 = wTouched g dist2 := by
  unfold wTouched
  congr 1
  apply List.map_congr_left
  intro p _
  by_cases h1 : dist1 p.1 ≠ ⊤
  · rw [if_pos h1, if_pos ((h p.1).1 h1)]
  · rw [if_neg h1, if_neg (fun hc => h1 ((h p.1).2 hc))]

theorem wTouched_fresh (g : Graph) (dist : Node → Dist) (v : Node) (nd : Dist)
    (hfresh : dist v = ⊤) (hnd : nd ≠ ⊤) {rv : Adj} (hmem : (v, rv) ∈ g) :
    wTouched g dist + rowWeight rv
      ≤ wTouched g (fun x => if x = v then nd else dist x) := by
  induction g with
  | nil => cases hmem
  | cons p t ih =>
      have hmono : ∀ y, dist y ≠ ⊤ → (fun x => if x = v then nd else dist x) y ≠ ⊤ := by
        intro y hy
        by_cases hyv : y = v
        · rw [hyv] at hy; exact absurd hfresh hy
        · simpa [hyv] using hy
      have e1 : wTouched (p :: t) dist
          = (if dist p.1 ≠ ⊤ then rowWeight p.2 else 0) + wTouched t dist := by
        rw [wTouched, wTouched, List.map_cons, List.sum_cons]
      have e2 : wTouched (p :: t) (fun x => if x = v then nd else dist x)
          = (if (if p.1 = v then nd else dist p.1) ≠ ⊤ then rowWeight p.2 else 0)
            + wTouched t (fun x => if x = v then nd else dist x) := by
        rw [wTouched, wTouched, List.map_cons, List.sum_cons]
      rw [e1, e2]
      rcases List.mem_cons.1 hmem with h1 | h1
      · have hp1 : p.1 = v := by rw [← h1]
        have hpr : p.2 = rv := by rw [← h1]
        have hterm : (if dist p.1 ≠ ⊤ then rowWeight p.2 else 0) = 0 :=
          if_neg (by rw [hp1, hfresh]; exact fun hc => hc rfl)
        have hterm2 : (if (if p.1 = v then nd else dist p.1) ≠ ⊤
            then rowWeight p.2 else 0) = rowWeight p.2 :=
          if_pos (by rw [if_pos hp1]; exact hnd)
        have hmt := wTouched_mono t dist _ hmono
        rw [hterm, hterm2, hpr]
        omega
      · have hterm : (if dist p.1 ≠ ⊤ then rowWeight p.2 else 0)
            ≤ (if (if p.1 = v then nd else dist p.1) ≠ ⊤ then rowWeight p.2 else 0) := by
          by_cases h2 : dist p.1 ≠ ⊤
          · rw [if_pos h2, if_pos (by have h3 := hmono p.1 h2; simpa using h3)]
          · rw [if_neg h2]
            exact Nat.zero_le _
        have := ih h1
        omega

/-! ### The Dijkstra loop invariant -/

/-- Invariant of the `while pq:` loop. -/
structure Inv (g : Graph) (src : Node) (st : DState) : Prop where
  dom : ∀ e ∈ st.pq, st.dist e.2 ≤ ((e.1 : Nat) : Dist)
  supp : ∀ v, st.dist v ≠ ⊤ → v ∈ uList g src
  bound : ∀ v, st.dist v ≠ ⊤ → st.dist v ≤ ((wTouched g st.dist : Nat) : Dist)
  fixI : ∀ p ∈ g, ∀ q ∈ p.2,
    st.dist q.1 ≤ st.dist p.1 + ((q.2 : Nat) : Dist) ∨
      ∃ d : Nat, (d, p.1) ∈ st.pq ∧ ((d : Nat) : Dist) ≤ st.dist p.1
  prevE : ∀ v u, st.prev v = some u →
    ∃ w : Nat, lookupEdge g u v = some w ∧
      st.dist u + ((w : Nat) : Dist) ≤ st.dist v ∧ st.dist v ≠ ⊤
  distSrc : st.dist src = 0
  prevSrc : st.prev src = none
  prevNone : ∀ v, st.dist v ≠ ⊤ → v ≠ src → st.prev v ≠ none
  term : ∀ v, ∃ f, (walkF st.prev f v).isSome = true

/-- Mid-relaxation invariant: everything except the fixpoint disjunction for
the edges out of the node `u` currently being relaxed. -/
structure MInv (g : Graph) (src u : Node) (d : Nat) (st : DState) : Prop where
  dom : ∀ e ∈ st.pq, st.dist e.2 ≤ ((e.1 : Nat) : Dist)
  supp : ∀ v, st.dist v ≠ ⊤ → v ∈ uList g src
  bound : ∀ v, st.dist v ≠ ⊤ → st.dist v ≤ ((wTouched g st.dist : Nat) : Dist)
  fixO : ∀ p ∈ g, p.1 ≠ u → ∀ q ∈ p.2,
    st.dist q.1 ≤ st.dist p.1 + ((q.2 : Nat) : Dist) ∨
      ∃ d1 : Nat, (d1, p.1) ∈ st.pq ∧ ((d1 : Nat) : Dist) ≤ st.dist p.1
  prevE : ∀ v u1, st.prev v = some u1 →
    ∃ w : Nat, lookupEdge g u1 v = some w ∧
      st.dist u1 + ((w : Nat) : Dist) ≤ st.dist v ∧ st.dist v ≠ ⊤
  distSrc : st.dist src = 0
  prevSrc : st.prev src = none
  prevNone : ∀ v, st.dist v ≠ ⊤ → v ≠ src → st.prev v ≠ none
  term : ∀ v, ∃ f, (walkF st.prev f v).isSome = true
  distU : st.dist u = ((d : Nat) : Dist)

theorem chainMono_of_prevE {g : Graph} {st : DState}
    (h : ∀ v u1, st.prev v = some u1 →
      ∃ w : Nat, lookupEdge g u1 v = some w ∧
        st.dist u1 + ((w : Nat) : Dist) ≤ st.dist v ∧ st.dist v ≠ ⊤) :
    ∀ x y, st.prev x = some y → st.dist y ≤ st.dist x := by
  intro x y hp
  rcases h x y hp with ⟨w, _, hle, _⟩
  exact le_trans le_self_add hle

theorem relaxStep_spec (g : Graph) (src u : Node) (d : Nat) (hWF : WF g)
    (st : DState) (q : Node × Weight) (hq : q ∈ neighborsG g u)
    (h : MInv g src u d st) :
    MInv g src u d (relaxStep u d st q) ∧
    (relaxStep u d st q).dist q.1 ≤ (((d + q.2 : Nat)) : Dist) ∧
    (∀ x, (relaxStep u d st q).dist x ≤ st.dist x) ∧
    (∀ e ∈ st.pq, e ∈ (relaxStep u d st q).pq) ∧
    phi g src (relaxStep u d st q) ≤ phi g src st := by
  by_cases hlt : (((d + q.2 : Nat)) : Dist) < st.dist q.1
  case neg =>
    rw [relaxStep, if_neg hlt]
    exact ⟨h, not_lt.1 hlt, fun x => le_refl _, fun e he => he, le_refl _⟩
  case pos =>
    have hstep : relaxStep u d st q =
        { dist := fun x => if x = q.1 then ((d + q.2 : Nat) : Dist) else st.dist x
          prev := fun x => if x = q.1 then some u else st.prev x
          pq := (d + q.2, q.1) :: st.pq } := by
      rw [relaxStep, if_pos hlt]
    have hvu : q.1 ≠ u := by
      intro hc
      rw [hc, h.distU] at hlt
      have : d + q.2 < d := by exact_mod_cast hlt
      omega
    have hdist'v : (relaxStep u d st q).dist q.1 = ((d + q.2 : Nat) : Dist) := by
      rw [hstep]
      simp
    have hdistne : ∀ x, x ≠ q.1 → (relaxStep u d st q).dist x = st.dist x := by
      intro x hx
      rw [hstep]
      simp [hx]
    have hdistle : ∀ x, (relaxStep u d st q).dist x ≤ st.dist x := by
      intro x
      by_cases hx : x = q.1
      · rw [hx, hdist'v]
        exact le_of_lt hlt
      · rw [hdistne x hx]
    have hnetop : ∀ x, st.dist x ≠ ⊤ → (relaxStep u d st q).dist x ≠ ⊤ :=
      fun x hx => ne_top_of_le_ne_top hx (hdistle x)
    have hpq : (relaxStep u d st q).pq = (d + q.2, q.1) :: st.pq := by
      rw [hstep]
    have hprev : (relaxStep u d st q).prev
        = fun x => if x = q.1 then some u else st.prev x := by
      rw [hstep]
    -- the row of `u` and, via symmetry, the row of `q.1`
    have hrowu : dictGet g u = some (neighborsG g u) := by
      cases hg : dictGet g u with
      | none => rw [neighborsG_eq_nil_of_none hg] at hq; cases hq
      | some r => rw [neighborsG_eq_of_dictGet hg]
    have hmemu : (u, neighborsG g u) ∈ g := mem_of_dictGet hrowu
    have hlookvu : lookupEdge g q.1 u = some q.2 :=
      hWF.2.2 (u, neighborsG g u) hmemu q hq
    have hlookuv : lookupEdge g u q.1 = some q.2 := by
      rw [lookupEdge]
      exact dictGet_of_mem (hWF.rowNodup u) (by cases q; exact hq)
    have hrowv : dictGet g q.1 = some (neighborsG g q.1) := by
      cases hg : dictGet g q.1 with
      | none =>
          rw [lookupEdge, neighborsG_eq_nil_of_none hg] at hlookvu
          cases hlookvu
      | some r => rw [neighborsG_eq_of_dictGet hg]
    have hmemv : (q.1, neighborsG g q.1) ∈ g := mem_of_dictGet hrowv
    have huinv : (u, q.2) ∈ neighborsG g q.1 := mem_of_dictGet hlookvu
    have hwle : q.2 ≤ rowWeight (neighborsG g q.1) := by
      apply List.single_le_sum (fun x _ => Nat.zero_le x)
      exact List.mem_map.2 ⟨(u, q.2), huinv, rfl⟩
    have hdU : (relaxStep u d st q).dist u = ((d : Nat) : Dist) := by
      rw [hdistne u (fun hc => hvu hc.symm)]
      exact h.distU
    -- bound for the new state
    have hbound : ∀ v, (relaxStep u d st q).dist v ≠ ⊤ →
        (relaxStep u d st q).dist v
          ≤ ((wTouched g (relaxStep u d st q).dist : Nat) : Dist) := by
      intro x hx
      by_cases hxv : x = q.1
      · rw [hxv, hdist'v]
        by_cases hfresh : st.dist q.1 = ⊤
        · have hd_le : d ≤ wTouched g st.dist := by
            have := h.bound u (by rw [h.distU]; exact WithTop.coe_ne_top)
            rw [h.distU] at this
            exact_mod_cast this
          have hfr := wTouched_fresh g st.dist q.1 ((d + q.2 : Nat) : Dist)
            hfresh WithTop.coe_ne_top hmemv
          have hW : d + q.2 ≤ wTouched g (relaxStep u d st q).dist := by
            have hrw : wTouched g (fun x => if x = q.1 then ((d + q.2 : Nat) : Dist)
                else st.dist x) = wTouched g (relaxStep u d st q).dist := by
              rw [hstep]
            have h5 : d + q.2 ≤ wTouched g st.dist + rowWeight (neighborsG g q.1) :=
              Nat.add_le_add hd_le hwle
            exact le_trans h5 (hrw ▸ hfr)
          exact_mod_cast hW
        · have hcongr : wTouched g (relaxStep u d st q).dist = wTouched g st.dist := by
            apply wTouched_congr
            intro y
            constructor
            · intro hy
              by_cases hyv : y = q.1
              · rw [hyv]; exact hfresh
              · rw [← hdistne y hyv]; exact hy
            · exact fun hy => hnetop y hy
          rw [hcongr]
          exact le_trans (le_of_lt hlt) (h.bound q.1 hfresh)
      · rw [hdistne x hxv]
        have hx2 : st.dist x ≠ ⊤ := by rw [← hdistne x hxv]; exact hx
        refine le_trans (h.bound x hx2) ?_
        exact_mod_cast wTouched_mono g st.dist (relaxStep u d st q).dist hnetop
    have hMInv : MInv g src u d (relaxStep u d st q) := by
      refine ⟨?_, ?_, hbound, ?_, ?_, ?_, ?_, ?_, ?_, hdU⟩
      · -- dom
        intro e he
        rw [hpq] at he
        rcases List.mem_cons.1 he with rfl | he1
        · rw [hdist'v]
        · exact le_trans (hdistle e.2) (h.dom e he1)
      · -- supp
        intro x hx
        by_cases hxv : x = q.1
        · rw [hxv]
          exact nbr_mem_uList g src u hq
        · rw [hdistne x hxv] at hx
          exact h.supp x hx
      · -- fixO
        intro p hp hpu q1 hq1
        rcases h.fixO p hp hpu q1 hq1 with hdir | ⟨d1, hd1, hle1⟩
        · by_cases hpv : p.1 = q.1
          · refine Or.inr ⟨d + q.2, ?_, ?_⟩
            · rw [hpq, hpv]
              exact List.mem_cons_self _ _
            · rw [hpv, hdist'v]
          · refine Or.inl ?_
            rw [hdistne p.1 hpv]
            exact le_trans (hdistle q1.1) hdir
        · by_cases hpv : p.1 = q.1
          · refine Or.inr ⟨d + q.2, ?_, ?_⟩
            · rw [hpq, hpv]
              exact List.mem_cons_self _ _
            · rw [hpv, hdist'v]
          · refine Or.inr ⟨d1, ?_, ?_⟩
            · rw [hpq]
              exact List.mem_cons_of_mem _ hd1
            · rw [hdistne p.1 hpv]
              exact hle1
      · -- prevE
        intro x u1 hx
        rw [hprev] at hx
        replace hx : (if x = q.1 then some u else st.prev x) = some u1 := hx
        by_cases hxv : x = q.1
        · rw [if_pos hxv] at hx
          rw [Option.some_inj] at hx
          refine ⟨q.2, ?_, ?_, ?_⟩
          · rw [← hx]
            rw [hxv]
            exact hlookuv
          · rw [hxv, hdist'v, ← hx, hdU]
            exact_mod_cast Nat.le_refl (d + q.2)
          · rw [hxv, hdist'v]
            exact WithTop.coe_ne_top
        · rw [if_neg hxv] at hx
          rcases h.prevE x u1 hx with ⟨w1, hlook1, hle1, hne1⟩
          refine ⟨w1, hlook1, ?_, ?_⟩
          · rw [hdistne x hxv]
            exact le_trans (add_le_add_right (hdistle u1) _) hle1
          · rw [hdistne x hxv]
            exact hne1
      · -- distSrc
        have : src ≠ q.1 := by
          intro hc
          rw [← hc, h.distSrc] at hlt
          exact absurd hlt (by simp)
        rw [hdistne src this]
        exact h.distSrc
      · -- prevSrc
        rw [hprev]
        show (if src = q.1 then some u else st.prev src) = none
        have : src ≠ q.1 := by
          intro hc
          rw [← hc, h.distSrc] at hlt
          exact absurd hlt (by simp)
        rw [if_neg this]
        exact h.prevSrc
      · -- prevNone
        intro x hx hxs
        rw [hprev]
        show (if x = q.1 then some u else st.prev x) ≠ none
        by_cases hxv : x = q.1
        · rw [if_pos hxv]
          exact fun hc => by cases hc
        · rw [if_neg hxv]
          rw [hdistne x hxv] at hx
          exact h.prevNone x hx hxs
      · -- term
        rw [hprev]
        apply term_update st.prev u q.1 h.term
        rcases h.term u with ⟨f0, hf0⟩
        rcases (walkF_isSome_iff _ _ _).1 hf0 with ⟨m0, hm0⟩
        refine ⟨f0, m0, hm0, ?_⟩
        intro z hz
        intro hzv
        have hle := walkF_dist_le st.dist st.prev
          (chainMono_of_prevE h.prevE) f0 u m0 hm0 z hz
        rw [hzv, h.distU] at hle
        have : st.dist q.1 ≤ ((d + q.2 : Nat) : Dist) := by
          refine le_trans hle ?_
          exact_mod_cast Nat.le_add_right d q.2
        exact absurd hlt (not_lt.2 this)
    refine ⟨hMInv, ?_, hdistle, ?_, ?_⟩
    · rw [hdist'v]
    · intro e he
      rw [hpq]
      exact List.mem_cons_of_mem _ he
    · -- the measure does not increase
      have hndB : d + q.2 ≤ wTotal g := by
        have := hMInv.bound q.1 (by rw [hdist'v]; exact WithTop.coe_ne_top)
        rw [hdist'v] at this
        have h2 : d + q.2 ≤ wTouched g (relaxStep u d st q).dist := by exact_mod_cast this
        exact le_trans h2 (wTouched_le_wTotal g _)
      have hcaplt : cap (wTotal g) ((d + q.2 : Nat) : Dist)
          < cap (wTotal g) (st.dist q.1) :=
        cap_lt_cap (wTotal g) (d + q.2) (st.dist q.1) hndB hlt
      have hvmem : q.1 ∈ uList g src := nbr_mem_uList g src u hq
      have hexch := capSum_update (wTotal g) (uList g src) (uList_nodup g src)
        st.dist q.1 hvmem ((d + q.2 : Nat) : Dist)
      have hmapeq : (List.map (fun x => cap (wTotal g) ((relaxStep u d st q).dist x))
            (uList g src))
          = List.map (fun x => cap (wTotal g)
              (if x = q.1 then ((d + q.2 : Nat) : Dist) else st.dist x)) (uList g src) := by
        apply List.map_congr_left
        intro x _
        rw [hstep]
      rw [phi, phi, hpq, hmapeq]
      rw [List.length_cons]
      omega

theorem relaxAll_spec (g : Graph) (src u : Node) (d : Nat) (hWF : WF g) :
    ∀ (L : List (Node × Weight)) (st : DState),
      (∀ q ∈ L, q ∈ neighborsG g u) → MInv g src u d st →
      MInv g src u d (L.foldl (relaxStep u d) st) ∧
      (∀ q ∈ L, (L.foldl (relaxStep u d) st).dist q.1 ≤ ((d + q.2 : Nat) : Dist)) ∧
      (∀ x, (L.foldl (relaxStep u d) st).dist x ≤ st.dist x) ∧
      (∀ e ∈ st.pq, e ∈ (L.foldl (relaxStep u d) st).pq) ∧
      phi g src (L.foldl (relaxStep u d) st) ≤ phi g src st := by
  intro L
  induction L with
  | nil =>
      intro st _ h
      exact ⟨h, fun q hq => absurd hq (List.not_mem_nil q), fun x => le_refl _,
        fun e he => he, le_refl _⟩
  | cons a t ih =>
      intro st hL h
      rw [List.foldl_cons]
      have ha := relaxStep_spec g src u d hWF st a (hL a (List.mem_cons_self _ _)) h
      have hrest := ih (relaxStep u d st a)
        (fun q hq => hL q (List.mem_cons_of_mem _ hq)) ha.1
      refine ⟨hrest.1, ?_, ?_, ?_, ?_⟩
      · intro q hq
        rcases List.mem_cons.1 hq with h1 | hq1
        · rw [h1]
          exact le_trans (hrest.2.2.1 a.1) ha.2.1
        · exact hrest.2.1 q hq1
      · exact fun x => le_trans (hrest.2.2.1 x) (ha.2.2.1 x)
      · exact fun e he => hrest.2.2.2.1 e (ha.2.2.2.1 e he)
      · exact le_trans hrest.2.2.2.2 ha.2.2.2.2

theorem dijkstraLoop_succ_pop (g : Graph) (fuel : Nat) (st : DState) (d : Nat)
    (u : Node) (rest : List (Nat × Node))
    (hext : extractMin st.pq = some ((d, u), rest)) :
    dijkstraLoop g (fuel + 1) st =
      if ((d : Nat) : Dist) > st.dist u then dijkstraLoop g fuel { st with pq := rest }
      else dijkstraLoop g fuel
        ((neighborsG g u).foldl (relaxStep u d) { st with pq := rest }) := by
  rw [dijkstraLoop, hext]

theorem dijkstraLoop_succ_empty (g : Graph) (fuel : Nat) (st : DState)
    (hpq : st.pq = []) : dijkstraLoop g (fuel + 1) st = st := by
  rw [dijkstraLoop, (extractMin_eq_none_iff _).2 hpq]

theorem dijkstraLoop_step (g : Graph) (src : Node) (hWF : WF g) (st : DState)
    (hInv : Inv g src st) (hne : st.pq ≠ []) :
    ∃ st2, (∀ fuel, dijkstraLoop g (fuel + 1) st = dijkstraLoop g fuel st2) ∧
      Inv g src st2 ∧ phi g src st2 < phi g src st := by
  cases hext : extractMin st.pq with
  | none => exact absurd ((extractMin_eq_none_iff _).1 hext) hne
  | some pr =>
      rcases pr with ⟨⟨d, u⟩, rest⟩
      have hperm := extractMin_perm st.pq (d, u) rest hext
      have hlen : st.pq.length = rest.length + 1 := by
        rw [hperm.length_eq]
        rfl
      have hmemrest : ∀ e ∈ rest, e ∈ st.pq :=
        fun e he => hperm.symm.subset (List.mem_cons_of_mem _ he)
      have hmemdu : (d, u) ∈ st.pq := hperm.symm.subset (List.mem_cons_self _ _)
      have hphi0 : phi g src { st with pq := rest } + 1 = phi g src st := by
        have e1 : phi g src { st with pq := rest }
            = rest.length
              + ((uList g src).map (fun v => cap (wTotal g) (st.dist v))).sum := rfl
        have e2 : phi g src st
            = st.pq.length
              + ((uList g src).map (fun v => cap (wTotal g) (st.dist v))).sum := rfl
        omega
      by_cases hstale : ((d : Nat) : Dist) > st.dist u
      · have hInv2 : Inv g src { st with pq := rest } := by
          refine ⟨fun e he => hInv.dom e (hmemrest e he), hInv.supp, hInv.bound, ?_,
            hInv.prevE, hInv.distSrc, hInv.prevSrc, hInv.prevNone, hInv.term⟩
          intro p hp q hq
          rcases hInv.fixI p hp q hq with hdir | ⟨d1, hd1, hle1⟩
          · exact Or.inl hdir
          · have hne2 : (d1, p.1) ≠ (d, u) := by
              intro hc
              rw [Prod.mk.injEq] at hc
              rw [hc.1, hc.2] at hle1
              exact absurd hstale (not_lt.2 hle1)
            rcases List.mem_cons.1 (hperm.subset hd1) with hc | hc
            · exact absurd hc hne2
            · exact Or.inr ⟨d1, hc, hle1⟩
        refine ⟨{ st with pq := rest }, ?_, hInv2, by omega⟩
        intro fuel
        rw [dijkstraLoop_succ_pop g fuel st d u rest hext, if_pos hstale]
      · have hdeq : st.dist u = ((d : Nat) : Dist) :=
          le_antisymm (hInv.dom (d, u) hmemdu) (not_lt.1 hstale)
        have hM0 : MInv g src u d { st with pq := rest } := by
          refine ⟨fun e he => hInv.dom e (hmemrest e he), hInv.supp, hInv.bound, ?_,
            hInv.prevE, hInv.distSrc, hInv.prevSrc, hInv.prevNone, hInv.term, hdeq⟩
          intro p hp hpu q hq
          rcases hInv.fixI p hp q hq with hdir | ⟨d1, hd1, hle1⟩
          · exact Or.inl hdir
          · have hne2 : (d1, p.1) ≠ (d, u) := by
              intro hc
              rw [Prod.mk.injEq] at hc
              exact hpu hc.2
            rcases List.mem_cons.1 (hperm.subset hd1) with hc | hc
            · exact absurd hc hne2
            · exact Or.inr ⟨d1, hc, hle1⟩
        have hfold := relaxAll_spec g src u d hWF (neighborsG g u)
          { st with pq := rest } (fun q hq => hq) hM0
        refine ⟨(neighborsG g u).foldl (relaxStep u d) { st with pq := rest },
          ?_, ?_, ?_⟩
        · intro fuel
          rw [dijkstraLoop_succ_pop g fuel st d u rest hext, if_neg hstale]
        · refine ⟨hfold.1.dom, hfold.1.supp, hfold.1.bound, ?_, hfold.1.prevE,
            hfold.1.distSrc, hfold.1.prevSrc, hfold.1.prevNone, hfold.1.term⟩
          intro p hp q hq
          by_cases hpu : p.1 = u
          · have hrow : dictGet g p.1 = some p.2 :=
              dictGet_of_mem hWF.1 (by cases p; exact hp)
            have hnb : neighborsG g u = p.2 := by
              rw [← hpu]
              exact neighborsG_eq_of_dictGet hrow
            have hq2 := hfold.2.1 q (by rw [hnb]; exact hq)
            refine Or.inl ?_
            rw [hpu, hfold.1.distU]
            refine le_trans hq2 ?_
            exact_mod_cast Nat.le_refl (d + q.2)
          · exact hfold.1.fixO p hp hpu q hq
        · exact lt_of_le_of_lt hfold.2.2.2.2 (by omega)

theorem dijkstraLoop_reaches (g : Graph) (src : Node) (hWF : WF g) :
    ∀ n st, Inv g src st → phi g src st ≤ n →
      (dijkstraLoop g n st).pq = [] ∧ Inv g src (dijkstraLoop g n st) := by
  intro n
  induction n with
  | zero =>
      intro st hInv hphi
      have h0 : st.pq.length = 0 := by
        rw [phi] at hphi
        omega
      have hpq : st.pq = [] := List.length_eq_zero.1 h0
      rw [dijkstraLoop]
      exact ⟨hpq, hInv⟩
  | succ n ih =>
      intro st hInv hphi
      by_cases hne : st.pq = []
      · rw [dijkstraLoop_succ_empty g n st hne]
        exact ⟨hne, hInv⟩
      · rcases dijkstraLoop_step g src hWF st hInv hne with ⟨st2, heq, hInv2, hlt⟩
        rw [heq n]
        exact ih st2 hInv2 (by omega)

theorem dInit_inv (g : Graph) (src : Node) : Inv g src (dInit src) := by
  refine ⟨?_, ?_, ?_, ?_, ?_, ?_, ?_, ?_, ?_⟩
  · intro e he
    rcases List.mem_singleton.1 he with rfl
    show (if src = src then (0 : Dist) else ⊤) ≤ ((0 : Nat) : Dist)
    rw [if_pos rfl]
    exact le_of_eq (by exact_mod_cast rfl)
  · intro v hv
    by_cases hvs : v = src
    · rw [hvs]
      exact src_mem_uList g src
    · exact absurd (show (dInit src).dist v = ⊤ by
        show (if v = src then (0 : Dist) else ⊤) = ⊤
        rw [if_neg hvs]) hv
  · intro v hv
    by_cases hvs : v = src
    · show (if v = src then (0 : Dist) else ⊤) ≤ _
      rw [if_pos hvs]
      exact zero_le _
    · exact absurd (show (dInit src).dist v = ⊤ by
        show (if v = src then (0 : Dist) else ⊤) = ⊤
        rw [if_neg hvs]) hv
  · intro p hp q hq
    by_cases hps : p.1 = src
    · refine Or.inr ⟨0, ?_, ?_⟩
      · show (0, p.1) ∈ [(0, src)]
        rw [hps]
        exact List.mem_singleton.2 rfl
      · show ((0 : Nat) : Dist) ≤ (if p.1 = src then (0 : Dist) else ⊤)
        rw [if_pos hps]
        exact le_of_eq (by exact_mod_cast rfl)
    · refine Or.inl ?_
      show (if q.1 = src then (0 : Dist) else ⊤)
        ≤ (if p.1 = src then (0 : Dist) else ⊤) + ((q.2 : Nat) : Dist)
      rw [if_neg hps, top_add]
      exact le_top
  · intro v u hx
    cases hx
  · show (if src = src then (0 : Dist) else ⊤) = 0
    rw [if_pos rfl]
  · rfl
  · intro v hv hvs
    exact absurd (show (dInit src).dist v = ⊤ by
      show (if v = src then (0 : Dist) else ⊤) = ⊤
      rw [if_neg hvs]) hv
  · intro v
    exact ⟨1, by rw [walkF_succ_none 0 rfl]; rfl⟩

theorem phi_dInit_le (g : Graph) (src : Node) :
    phi g src (dInit src) ≤ dijkstraFuel g src := by
  rw [phi, dijkstraFuel]
  have hb : ∀ x ∈ (uList g src).map (fun v => cap (wTotal g) ((dInit src).dist v)),
      x ≤ wTotal g + 1 := by
    intro x hx
    rcases List.mem_map.1 hx with ⟨v, _, rfl⟩
    exact cap_le _ _
  have hsum := List.sum_le_card_nsmul _ _ hb
  rw [List.length_map, smul_eq_mul] at hsum
  have hl : (dInit src).pq.length = 1 := rfl
  omega

/-- The main specification of `compute_shortest_paths`: the loop terminates
with an empty queue and the invariant holds of the final state. -/
theorem dijkstra_spec (g : Graph) (src : Node) (hWF : WF g) :
    (dijkstra g src).pq = [] ∧ Inv g src (dijkstra g src) :=
  dijkstraLoop_reaches g src hWF (dijkstraFuel g src) (dInit src)
    (dInit_inv g src) (phi_dInit_le g src)

/-- The shortest-path fixpoint over every directed adjacency entry. -/
theorem dijkstra_fix (g : Graph) (src : Node) (hWF : WF g) :
    ∀ p ∈ g, ∀ q ∈ p.2,
      (dijkstra g src).dist q.1
        ≤ (dijkstra g src).dist p.1 + ((q.2 : Nat) : Dist) := by
  obtain ⟨hpq, hInv⟩ := dijkstra_spec g src hWF
  intro p hp q hq
  rcases hInv.fixI p hp q hq with hdir | ⟨d1, hd1, _⟩
  · exact hdir
  · rw [hpq] at hd1
    cases hd1

/-! ### Walks and path weights -/

/-- Every consecutive pair of the list is a link of the topology. -/
def isWalkB (g : Graph) : List Node → Bool
  | [] => true
  | [_] => true
  | a :: b :: rest => (lookupEdge g a b).isSome && isWalkB g (b :: rest)

/-- Sum of traversed link weights. -/
def walkWeight (g : Graph) : List Node → Nat
  | [] => 0
  | [_] => 0
  | a :: b :: rest => (lookupEdge g a b).getD 0 + walkWeight g (b :: rest)

/-- `l` is a walk from `s` to `t` in `g`. -/
def IsWalkFromTo (g : Graph) (l : List Node) (s t : Node) : Prop :=
  l.head? = some s ∧ l.getLast? = some t ∧ isWalkB g l = true

/-- Backward link condition along the predecessor chain. -/
def backWalkB (g : Graph) : List Node → Bool
  | [] => true
  | [_] => true
  | a :: b :: rest => (lookupEdge g b a).isSome && backWalkB g (b :: rest)

/-- Weight of the predecessor chain read backwards. -/
def wBack (g : Graph) : List Node → Nat
  | [] => 0
  | [_] => 0
  | a :: b :: rest => (lookupEdge g b a).getD 0 + wBack g (b :: rest)

theorem lookupEdge_isSome_key {g : Graph} {a b : Node}
    (h : (lookupEdge g a b).isSome = true) : (dictGet g a).isSome = true := by
  cases hg : dictGet g a with
  | none =>
      rw [lookupEdge, neighborsG_eq_nil_of_none hg] at h
      cases h
  | some r => rfl

theorem dijkstra_fix_edge (g : Graph) (src : Node) (hWF : WF g) {a b : Node}
    {w : Nat} (h : lookupEdge g a b = some w) :
    (dijkstra g src).dist b ≤ (dijkstra g src).dist a + ((w : Nat) : Dist) := by
  cases hg : dictGet g a with
  | none =>
      rw [lookupEdge, neighborsG_eq_nil_of_none hg] at h
      cases h
  | some r =>
      rw [lookupEdge, neighborsG_eq_of_dictGet hg] at h
      exact dijkstra_fix g src hWF (a, r) (mem_of_dictGet hg) (b, w) (mem_of_dictGet h)

/-- Any walk upper-bounds the computed distance of its endpoint. -/
theorem dist_le_walk (g : Graph) (src : Node) (hWF : WF g) :
    ∀ (l : List Node) (a t : Node), isWalkB g l = true → l.head? = some a →
      l.getLast? = some t →
      (dijkstra g src).dist t
        ≤ (dijkstra g src).dist a + ((walkWeight g l : Nat) : Dist) := by
  intro l
  induction l with
  | nil => intro a t _ h1 _; cases h1
  | cons x rest ih =>
      intro a t hw h1 h2
      have hxa : x = a := by
        rw [List.head?_cons, Option.some_inj] at h1
        exact h1
      cases rest with
      | nil =>
          rw [show ([x] : List Node).getLast? = some x from rfl, Option.some_inj] at h2
          rw [← hxa, ← h2]
          rw [show walkWeight g [x] = 0 from rfl]
          exact le_self_add
      | cons y rest2 =>
          have hw0 : ((lookupEdge g x y).isSome && isWalkB g (y :: rest2)) = true := hw
          have hw1 : (lookupEdge g x y).isSome = true ∧ isWalkB g (y :: rest2) = true := by
            rw [Bool.and_eq_true] at hw0
            exact hw0
          rcases Option.isSome_iff_exists.1 hw1.1 with ⟨w, hwx⟩
          have hlast : (y :: rest2).getLast? = some t := by
            rw [← List.getLast?_cons_cons]
            exact h2
          have hih := ih y t hw1.2 rfl hlast
          have hedge : (dijkstra g src).dist y
              ≤ (dijkstra g src).dist a + ((w : Nat) : Dist) := by
            rw [← hxa]
            exact dijkstra_fix_edge g src hWF hwx
          have hww : walkWeight g (x :: y :: rest2)
              = w + walkWeight g (y :: rest2) := by
            rw [walkWeight, hwx]
            rfl
          rw [hww]
          have hcast : ((w + walkWeight g (y :: rest2) : Nat) : Dist)
              = ((w : Nat) : Dist) + ((walkWeight g (y :: rest2) : Nat) : Dist) := by
            exact_mod_cast rfl
          rw [hcast]
          calc (dijkstra g src).dist t
              ≤ (dijkstra g src).dist y
                + ((walkWeight g (y :: rest2) : Nat) : Dist) := hih
            _ ≤ ((dijkstra g src).dist a + ((w : Nat) : Dist))
                + ((walkWeight g (y :: rest2) : Nat) : Dist) :=
                  add_le_add_right hedge _
            _ = (dijkstra g src).dist a
                + (((w : Nat) : Dist) + ((walkWeight g (y :: rest2) : Nat) : Dist)) := by
                  rw [add_assoc]

theorem isWalkB_append_single (g : Graph) :
    ∀ (l : List Node) (a z : Node), l.getLast? = some z →
      isWalkB g (l ++ [a]) = (isWalkB g l && (lookupEdge g z a).isSome) := by
  intro l
  induction l with
  | nil => intro a z h; cases h
  | cons b rest ih =>
      intro a z h
      cases rest with
      | nil =>
          have hbz : b = z := by
            rw [show ([b] : List Node).getLast? = some b from rfl, Option.some_inj] at h
            exact h
          rw [hbz]
          show ((lookupEdge g z a).isSome && isWalkB g [a])
            = (isWalkB g [z] && (lookupEdge g z a).isSome)
          rw [show isWalkB g [a] = true from rfl, show isWalkB g [z] = true from rfl,
            Bool.and_true, Bool.true_and]
      | cons c rest2 =>
          have h2 : (c :: rest2).getLast? = some z := by
            rw [← List.getLast?_cons_cons]
            exact h
          show ((lookupEdge g b c).isSome && isWalkB g ((c :: rest2) ++ [a]))
            = (((lookupEdge g b c).isSome && isWalkB g (c :: rest2))
                && (lookupEdge g z a).isSome)
          rw [ih a z h2, Bool.and_assoc]

theorem walkWeight_append_single (g : Graph) :
    ∀ (l : List Node) (a z : Node), l.getLast? = some z →
      walkWeight g (l ++ [a]) = walkWeight g l + (lookupEdge g z a).getD 0 := by
  intro l
  induction l with
  | nil => intro a z h; cases h
  | cons b rest ih =>
      intro a z h
      cases rest with
      | nil =>
          have hbz : b = z := by
            rw [show ([b] : List Node).getLast? = some b from rfl, Option.some_inj] at h
            exact h
          rw [hbz]
          show (lookupEdge g z a).getD 0 + walkWeight g [a]
            = walkWeight g [z] + (lookupEdge g z a).getD 0
          rw [show walkWeight g [a] = 0 from rfl, show walkWeight g [z] = 0 from rfl,
            Nat.add_zero, Nat.zero_add]
      | cons c rest2 =>
          have h2 : (c :: rest2).getLast? = some z := by
            rw [← List.getLast?_cons_cons]
            exact h
          show (lookupEdge g b c).getD 0 + walkWeight g ((c :: rest2) ++ [a])
            = ((lookupEdge g b c).getD 0 + walkWeight g (c :: rest2))
              + (lookupEdge g z a).getD 0
          rw [ih a z h2, Nat.add_assoc]

theorem isWalkB_reverse_eq (g : Graph) :
    ∀ m : List Node, isWalkB g m.reverse = backWalkB g m := by
  intro m
  induction m with
  | nil => rfl
  | cons x rest ih =>
      cases rest with
      | nil => rfl
      | cons y rest2 =>
          rw [List.reverse_cons, isWalkB_append_single g ((y :: rest2).reverse) x y
            (by rw [List.getLast?_reverse]; rfl), ih]
          show (backWalkB g (y :: rest2) && (lookupEdge g y x).isSome)
            = ((lookupEdge g y x).isSome && backWalkB g (y :: rest2))
          rw [Bool.and_comm]

theorem walkWeight_reverse_eq (g : Graph) :
    ∀ m : List Node, walkWeight g m.reverse = wBack g m := by
  intro m
  induction m with
  | nil => rfl
  | cons x rest ih =>
      cases rest with
      | nil => rfl
      | cons y rest2 =>
          rw [List.reverse_cons, walkWeight_append_single g ((y :: rest2).reverse) x y
            (by rw [List.getLast?_reverse]; rfl), ih]
          show wBack g (y :: rest2) + (lookupEdge g y x).getD 0
            = (lookupEdge g y x).getD 0 + wBack g (y :: rest2)
          rw [Nat.add_comm]

/-- All structural facts about the predecessor chain of the finished run. -/
theorem chain_spec (g : Graph) (src : Node) (hWF : WF g) :
    ∀ f x m, walkF (dijkstra g src).prev f x = some m →
      (dijkstra g src).dist x ≠ ⊤ →
      m.head? = some x ∧ m.getLast? = some src ∧ backWalkB g m = true ∧
      ((wBack g m : Nat) : Dist) = (dijkstra g src).dist x ∧
      (∀ z ∈ m, z = x ∨ z ∈ nodesG g) ∧
      (∀ z ∈ m, (dijkstra g src).dist z ≠ ⊤) := by
  obtain ⟨hpq, hInv⟩ := dijkstra_spec g src hWF
  intro f
  induction f with
  | zero => intro x m h _; cases h
  | succ f ih =>
      intro x m h hdist
      cases hp : (dijkstra g src).prev x with
      | none =>
          rw [walkF_succ_none f hp, Option.some_inj] at h
          have hxs : x = src := by
            by_contra hxs
            exact hInv.prevNone x hdist hxs hp
          refine ⟨by rw [← h]; rfl, by rw [← h, hxs]; rfl, by rw [← h]; rfl, ?_, ?_, ?_⟩
          · rw [← h]
            rw [show wBack g [x] = 0 from rfl, hxs, hInv.distSrc]
            exact_mod_cast rfl
          · intro z hz
            rw [← h] at hz
            rcases List.mem_singleton.1 hz with rfl
            exact Or.inl rfl
          · intro z hz
            rw [← h] at hz
            rcases List.mem_singleton.1 hz with rfl
            exact hdist
      | some u =>
          rw [walkF_succ_some f hp] at h
          cases hw : walkF (dijkstra g src).prev f u with
          | none => rw [hw] at h; cases h
          | some m1 =>
              rw [hw] at h
              replace h : x :: m1 = m := Option.some_inj.1 h
              rcases hInv.prevE x u hp with ⟨w, hlook, hle, _⟩
              have hdu : (dijkstra g src).dist u ≠ ⊤ :=
                ne_top_of_le_ne_top hdist (le_trans le_self_add hle)
              have heq : (dijkstra g src).dist x
                  = (dijkstra g src).dist u + ((w : Nat) : Dist) :=
                le_antisymm (dijkstra_fix_edge g src hWF hlook) hle
              have hIH := ih u m1 hw hdu
              have hu_node : u ∈ nodesG g :=
                (dictGet_isSome_iff g u).1 (lookupEdge_isSome_key (by rw [hlook]; rfl))
              cases m1 with
              | nil => cases hIH.1
              | cons u1 m2 =>
                  have hu1 : u1 = u := by
                    have := hIH.1
                    rw [List.head?_cons, Option.some_inj] at this
                    exact this
                  subst hu1
                  refine ⟨by rw [← h]; rfl, ?_, ?_, ?_, ?_, ?_⟩
                  · rw [← h, List.getLast?_cons_cons]
                    exact hIH.2.1
                  · rw [← h]
                    show ((lookupEdge g u1 x).isSome && backWalkB g (u1 :: m2)) = true
                    rw [Bool.and_eq_true]
                    exact ⟨by rw [hlook]; rfl, hIH.2.2.1⟩
                  · rw [← h]
                    show ((wBack g (x :: u1 :: m2) : Nat) : Dist)
                      = (dijkstra g src).dist x
                    have hwb : wBack g (x :: u1 :: m2) = w + wBack g (u1 :: m2) := by
                      show (lookupEdge g u1 x).getD 0 + wBack g (u1 :: m2) = _
                      rw [hlook]
                      rfl
                    rw [hwb, heq, ← hIH.2.2.2.1]
                    rw [show ((w + wBack g (u1 :: m2) : Nat) : Dist)
                      = ((w : Nat) : Dist) + ((wBack g (u1 :: m2) : Nat) : Dist) by
                        exact_mod_cast rfl]
                    rw [add_comm]
                  · intro z hz
                    rw [← h] at hz
                    rcases List.mem_cons.1 hz with rfl | hz1
                    · exact Or.inl rfl
                    · rcases hIH.2.2.2.2.1 z hz1 with rfl | hzn
                      · exact Or.inr hu_node
                      · exact Or.inr hzn
                  · intro z hz
                    rw [← h] at hz
                    rcases List.mem_cons.1 hz with rfl | hz1
                    · exact hdist
                    · exact hIH.2.2.2.2.2 z hz1

theorem walkF_exact (prev : Node → Option Node) :
    ∀ f x m, walkF prev f x = some m → walkF prev m.length x = some m := by
  intro f
  induction f with
  | zero => intro x m h; cases h
  | succ f ih =>
      intro x m h
      cases hp : prev x with
      | none =>
          rw [walkF_succ_none f hp, Option.some_inj] at h
          rw [← h]
          exact walkF_succ_none 0 hp
      | some u =>
          rw [walkF_succ_some f hp] at h
          cases hw : walkF prev f u with
          | none => rw [hw] at h; cases h
          | some m1 =>
              rw [hw] at h
              replace h : x :: m1 = m := Option.some_inj.1 h
              rw [← h, List.length_cons, walkF_succ_some m1.length hp,
                ih u m1 hw]
              rfl

theorem walkF_mono (prev : Node → Option Node) :
    ∀ f x m, walkF prev f x = some m → ∀ f2, f ≤ f2 → walkF prev f2 x = some m := by
  intro f
  induction f with
  | zero => intro x m h; cases h
  | succ f ih =>
      intro x m h f2 hf2
      rcases Nat.exists_eq_add_of_le hf2 with ⟨k, hk⟩
      have hf2eq : f2 = (f + k) + 1 := by omega
      rw [hf2eq]
      cases hp : prev x with
      | none =>
          rw [walkF_succ_none f hp, Option.some_inj] at h
          rw [walkF_succ_none (f + k) hp, Option.some_inj]
          exact h
      | some u =>
          rw [walkF_succ_some f hp] at h
          cases hw : walkF prev f u with
          | none => rw [hw] at h; cases h
          | some m1 =>
              rw [hw] at h
              rw [walkF_succ_some (f + k) hp,
                ih u m1 hw (f + k) (Nat.le_add_right f k)]
              exact h

theorem walkF_unique (prev : Node → Option Node) (f1 f2 : Nat) (x : Node)
    (m1 m2 : List Node) (h1 : walkF prev f1 x = some m1)
    (h2 : walkF prev f2 x = some m2) : m1 = m2 := by
  have e1 := walkF_mono prev f1 x m1 h1 (f1 + f2) (Nat.le_add_right _ _)
  have e2 := walkF_mono prev f2 x m2 h2 (f1 + f2) (Nat.le_add_left _ _)
  rw [e1] at e2
  exact Option.some_inj.1 e2

theorem walkF_mem_suffix (prev : Node → Option Node) :
    ∀ f x m, walkF prev f x = some m → ∀ z ∈ m,
      ∃ f2 m2, walkF prev f2 z = some m2 ∧ m2.length ≤ m.length ∧
        (z ≠ x → m2.length < m.length) := by
  intro f
  induction f with
  | zero => intro x m h; cases h
  | succ f ih =>
      intro x m h z hz
      cases hp : prev x with
      | none =>
          rw [walkF_succ_none f hp, Option.some_inj] at h
          rw [← h] at hz
          rcases List.mem_singleton.1 hz with rfl
          exact ⟨f + 1, m, by rw [walkF_succ_none f hp, ← h],
            le_refl _, fun hc => absurd rfl hc⟩
      | some u =>
          rw [walkF_succ_some f hp] at h
          cases hw : walkF prev f u with
          | none => rw [hw] at h; cases h
          | some m1 =>
              rw [hw] at h
              replace h : x :: m1 = m := Option.some_inj.1 h
              rw [← h] at hz
              rcases List.mem_cons.1 hz with rfl | hz1
              · exact ⟨f + 1, m, by rw [walkF_succ_some f hp, hw, ← h]; rfl,
                  le_refl _, fun hc => absurd rfl hc⟩
              · rcases ih u m1 hw z hz1 with ⟨f2, m2, hm2, hlen, _⟩
                refine ⟨f2, m2, hm2, ?_, ?_⟩
                · rw [← h, List.length_cons]
                  omega
                · intro _
                  rw [← h, List.length_cons]
                  omega

theorem walkF_nodup (prev : Node → Option Node) :
    ∀ f x m, walkF prev f x = some m → m.Nodup := by
  intro f
  induction f with
  | zero => intro x m h; cases h
  | succ f ih =>
      intro x m h
      cases hp : prev x with
      | none =>
          rw [walkF_succ_none f hp, Option.some_inj] at h
          rw [← h]
          exact List.nodup_singleton x
      | some u =>
          rw [walkF_succ_some f hp] at h
          cases hw : walkF prev f u with
          | none => rw [hw] at h; cases h
          | some m1 =>
              rw [hw] at h
              replace h : x :: m1 = m := Option.some_inj.1 h
              rw [← h]
              refine List.nodup_cons.2 ⟨?_, ih u m1 hw⟩
              intro hx
              rcases walkF_mem_suffix prev f u m1 hw x hx with ⟨f2, m2, hm2, hlen, _⟩
              have hfull : walkF prev (f + 1) x = some (x :: m1) := by
                rw [walkF_succ_some f hp, hw]
                rfl
              have := walkF_unique prev (f + 1) f2 x (x :: m1) m2 hfull hm2
              rw [← this, List.length_cons] at hlen
              omega

theorem final_walk (g : Graph) (src : Node) (hWF : WF g) (dst : Node)
    (hd : (dijkstra g src).dist dst ≠ ⊤) :
    ∃ m, walkF (dijkstra g src).prev (walkFuel g src) dst = some m := by
  obtain ⟨hpq, hInv⟩ := dijkstra_spec g src hWF
  rcases hInv.term dst with ⟨f, hf⟩
  rcases (walkF_isSome_iff _ _ _).1 hf with ⟨m, hm⟩
  have hspec := chain_spec g src hWF f dst m hm hd
  have hsub : ∀ z ∈ m, z ∈ uList g src := by
    intro z hz
    exact hInv.supp z (hspec.2.2.2.2.2 z hz)
  have hnd := walkF_nodup _ f dst m hm
  have hlen : m.length ≤ (uList g src).length :=
    (List.subperm_of_subset hnd hsub).length_le
  exact ⟨m, walkF_mono _ m.length dst m (walkF_exact _ f dst m hm) (walkFuel g src)
    (by rw [walkFuel]; omega)⟩

theorem buildPath_succ_mem_none (g : Graph) (prev : Node → Option Node) (f : Nat)
    (cur : Node) (hmem : cur ∈ nodesG g) (hp : prev cur = none) :
    buildPath g prev (f + 1) cur = some (Except.ok [cur]) := by
  rw [buildPath, if_pos hmem, hp]

theorem buildPath_succ_mem_some (g : Graph) (prev : Node → Option Node) (f : Nat)
    (cur u : Node) (hmem : cur ∈ nodesG g) (hp : prev cur = some u) :
    buildPath g prev (f + 1) cur
      = (buildPath g prev f u).map (fun r => r.map (fun l => cur :: l)) := by
  rw [buildPath, if_pos hmem, hp]

theorem buildPath_of_walkF (g : Graph) (prev : Node → Option Node) :
    ∀ f x m, walkF prev f x = some m → (∀ z ∈ m, z ∈ nodesG g) →
      buildPath g prev f x = some (Except.ok m) := by
  intro f
  induction f with
  | zero => intro x m h; cases h
  | succ f ih =>
      intro x m h hz
      cases hp : prev x with
      | none =>
          rw [walkF_succ_none f hp, Option.some_inj] at h
          have hmem : x ∈ nodesG g := hz x (by rw [← h]; simp)
          rw [buildPath_succ_mem_none g prev f x hmem hp, ← h]
      | some u =>
          rw [walkF_succ_some f hp] at h
          cases hw : walkF prev f u with
          | none => rw [hw] at h; cases h
          | some m1 =>
              rw [hw] at h
              replace h : x :: m1 = m := Option.some_inj.1 h
              have hmem : x ∈ nodesG g := hz x (by rw [← h]; simp)
              have hsub : ∀ z ∈ m1, z ∈ nodesG g := by
                intro z hz1
                apply hz
                rw [← h]
                exact List.mem_cons_of_mem _ hz1
              have hih := ih u m1 hw hsub
              rw [buildPath_succ_mem_some g prev f x u hmem hp, hih, ← h]
              rfl

theorem computePath_unreachable (g : Graph) (src dst : Node)
    (hdst : dst ∈ nodesG g ∨ dst = src) (hT : (dijkstra g src).dist dst = ⊤) :
    computePath g src dst = Except.ok none := by
  show (if dst ∈ nodesG g ∨ dst = src then
    if (dijkstra g src).dist dst = ⊤ then Except.ok none
    else
      match buildPath g (dijkstra g src).prev (walkFuel g src) dst with
      | some (Except.ok l) => Except.ok (some l.reverse)
      | _ => Except.error ()
    else Except.error ()) = Except.ok none
  rw [if_pos hdst, if_pos hT]

theorem computePath_reached (g : Graph) (src dst : Node) (m : List Node)
    (hdst : dst ∈ nodesG g ∨ dst = src) (hT : ¬ (dijkstra g src).dist dst = ⊤)
    (hbuild : buildPath g (dijkstra g src).prev (walkFuel g src) dst
      = some (Except.ok m)) :
    computePath g src dst = Except.ok (some m.reverse) := by
  show (if dst ∈ nodesG g ∨ dst = src then
    if (dijkstra g src).dist dst = ⊤ then Except.ok none
    else
      match buildPath g (dijkstra g src).prev (walkFuel g src) dst with
      | some (Except.ok l) => Except.ok (some l.reverse)
      | _ => Except.error ()
    else Except.error ()) = Except.ok (some m.reverse)
  rw [if_pos hdst, if_neg hT, hbuild]

theorem computePath_keyError (g : Graph) (src dst : Node)
    (hdst : ¬ (dst ∈ nodesG g ∨ dst = src)) :
    computePath g src dst = Except.error () := by
  show (if dst ∈ nodesG g ∨ dst = src then
    if (dijkstra g src).dist dst = ⊤ then Except.ok none
    else
      match buildPath g (dijkstra g src).prev (walkFuel g src) dst with
      | some (Except.ok l) => Except.ok (some l.reverse)
      | _ => Except.error ()
    else Except.error ()) = Except.error ()
  rw [if_neg hdst]

/-- Full characterization of a `compute_path` query on a node destination. -/
theorem computePath_spec (g : Graph) (src dst : Node) (hWF : WF g)
    (hdst : dst ∈ nodesG g) :
    ((dijkstra g src).dist dst = ⊤ ∧ computePath g src dst = Except.ok none) ∨
    (∃ p, computePath g src dst = Except.ok (some p) ∧
      p.head? = some src ∧ p.getLast? = some dst ∧ isWalkB g p = true ∧
      ((walkWeight g p : Nat) : Dist) = (dijkstra g src).dist dst) := by
  by_cases hT : (dijkstra g src).dist dst = ⊤
  · exact Or.inl ⟨hT, computePath_unreachable g src dst (Or.inl hdst) hT⟩
  · right
    rcases final_walk g src hWF dst hT with ⟨m, hm⟩
    have hspec := chain_spec g src hWF (walkFuel g src) dst m hm hT
    have hnodes : ∀ z ∈ m, z ∈ nodesG g := by
      intro z hz
      rcases hspec.2.2.2.2.1 z hz with rfl | h
      · exact hdst
      · exact h
    have hbuild := buildPath_of_walkF g _ (walkFuel g src) dst m hm hnodes
    refine ⟨m.reverse,
      computePath_reached g src dst m (Or.inl hdst) hT hbuild, ?_, ?_, ?_, ?_⟩
    · rw [List.head?_reverse]
      exact hspec.2.1
    · rw [List.getLast?_reverse]
      exact hspec.1
    · rw [isWalkB_reverse_eq]
      exact hspec.2.2.1
    · rw [walkWeight_reverse_eq]
      exact hspec.2.2.2.1

/-- Unreachability of the distance map coincides with absence of any walk. -/
theorem top_iff_no_walk (g : Graph) (src dst : Node) (hWF : WF g) :
    (dijkstra g src).dist dst = ⊤ ↔ ¬ ∃ l, IsWalkFromTo g l src dst := by
  obtain ⟨hpq, hInv⟩ := dijkstra_spec g src hWF
  constructor
  · rintro hT ⟨l, hl⟩
    have hle := dist_le_walk g src hWF l src dst hl.2.2 hl.1 hl.2.1
    rw [hT, hInv.distSrc, zero_add] at hle
    exact absurd hle (by simp)
  · intro hnw
    by_contra hT
    rcases final_walk g src hWF dst hT with ⟨m, hm⟩
    have hspec := chain_spec g src hWF (walkFuel g src) dst m hm hT
    refine hnw ⟨m.reverse, ?_, ?_, ?_⟩
    · rw [List.head?_reverse]
      exact hspec.2.1
    · rw [List.getLast?_reverse]
      exact hspec.1
    · rw [isWalkB_reverse_eq]
      exact hspec.2.2.1

/-! ### Flow-table entry characterization -/

/-- Look up the table entry for a destination, first match as in any reader of
the entry list. -/
def findEntry (row : List Entry) (dst : Node) : Option Entry :=
  row.find? (fun e => decide (e.match_dst = dst))

theorem foldPriority_fields (dst : Node) (l : List Flow) :
    ∀ e : Entry,
      (l.foldl (fun e p => if p.2 = dst then { e with priority := Priority.high }
        else e) e).match_dst = e.match_dst ∧
      (l.foldl (fun e p => if p.2 = dst then { e with priority := Priority.high }
        else e) e).action = e.action ∧
      (l.foldl (fun e p => if p.2 = dst then { e with priority := Priority.high }
        else e) e).backup = e.backup := by
  induction l with
  | nil => intro e; exact ⟨rfl, rfl, rfl⟩
  | cons a t ih =>
      intro e
      rw [List.foldl_cons]
      by_cases ha : a.2 = dst
      · rw [if_pos ha]
        exact ih _
      · rw [if_neg ha]
        exact ih _

theorem foldPriority_high_iff (dst : Node) (l : List Flow) :
    ∀ e : Entry,
      ((l.foldl (fun e p => if p.2 = dst then { e with priority := Priority.high }
        else e) e).priority = Priority.high
        ↔ (∃ p ∈ l, p.2 = dst) ∨ e.priority = Priority.high) := by
  induction l with
  | nil =>
      intro e
      constructor
      · exact fun h => Or.inr h
      · rintro (⟨p, hp, _⟩ | h)
        · cases hp
        · exact h
  | cons a t ih =>
      intro e
      rw [List.foldl_cons]
      by_cases ha : a.2 = dst
      · rw [if_pos ha, ih]
        constructor
        · rintro (⟨p, hp, hd⟩ | _)
          · exact Or.inl ⟨p, List.mem_cons_of_mem _ hp, hd⟩
          · exact Or.inl ⟨a, List.mem_cons_self _ _, ha⟩
        · intro _
          exact Or.inr rfl
      · rw [if_neg ha, ih]
        constructor
        · rintro (⟨p, hp, hd⟩ | h)
          · exact Or.inl ⟨p, List.mem_cons_of_mem _ hp, hd⟩
          · exact Or.inr h
        · rintro (⟨p, hp, hd⟩ | h)
          · rcases List.mem_cons.1 hp with rfl | hp1
            · exact absurd hd ha
            · exact Or.inl ⟨p, hp1, hd⟩
          · exact Or.inr h

theorem foldBackup_fields (critical : List Flow) (prim : List Node) (l : List Flow) :
    ∀ e : Entry,
      (l.foldl (fun e p => if p ∈ critical ∧ prim.length > 1
        then { e with backup := some (prim.drop 1) } else e) e).match_dst
          = e.match_dst ∧
      (l.foldl (fun e p => if p ∈ critical ∧ prim.length > 1
        then { e with backup := some (prim.drop 1) } else e) e).action = e.action ∧
      (l.foldl (fun e p => if p ∈ critical ∧ prim.length > 1
        then { e with backup := some (prim.drop 1) } else e) e).priority
          = e.priority := by
  induction l with
  | nil => intro e; exact ⟨rfl, rfl, rfl⟩
  | cons a t ih =>
      intro e
      rw [List.foldl_cons]
      by_cases ha : a ∈ critical ∧ prim.length > 1
      · rw [if_pos ha]
        exact ih _
      · rw [if_neg ha]
        exact ih _

theorem foldBackup_value (critical : List Flow) (prim : List Node) (l : List Flow) :
    ∀ e : Entry,
      (l.foldl (fun e p => if p ∈ critical ∧ prim.length > 1
        then { e with backup := some (prim.drop 1) } else e) e).backup
        = if (∃ p ∈ l, p ∈ critical) ∧ prim.length > 1 then some (prim.drop 1)
          else e.backup := by
  induction l with
  | nil =>
      intro e
      have hc : ¬ ((∃ p ∈ ([] : List Flow), p ∈ critical) ∧ prim.length > 1) := by
        rintro ⟨⟨p, hp, _⟩, _⟩
        cases hp
      rw [if_neg hc]
      rfl
  | cons a t ih =>
      intro e
      rw [List.foldl_cons]
      by_cases ha : a ∈ critical ∧ prim.length > 1
      · rw [if_pos ha, ih]
        have hcond : (∃ p ∈ a :: t, p ∈ critical) ∧ prim.length > 1 :=
          ⟨⟨a, List.mem_cons_self _ _, ha.1⟩, ha.2⟩
        rw [if_pos hcond]
        by_cases ht : (∃ p ∈ t, p ∈ critical) ∧ prim.length > 1
        · rw [if_pos ht]
        · rw [if_neg ht]
      · rw [if_neg ha, ih]
        by_cases ht : (∃ p ∈ t, p ∈ critical) ∧ prim.length > 1
        · rw [if_pos ht, if_pos ⟨⟨ht.1.choose, List.mem_cons_of_mem _
            ht.1.choose_spec.1, ht.1.choose_spec.2⟩, ht.2⟩]
        · rw [if_neg ht, if_neg]
          rintro ⟨⟨p, hp, hpc⟩, hlen⟩
          rcases List.mem_cons.1 hp with rfl | hp1
          · exact ha ⟨hpc, hlen⟩
          · exact ht ⟨⟨p, hp1, hpc⟩, hlen⟩

theorem buildEntry_match_dst (dst : Node) (prim : List Node)
    (active critical : List Flow) :
    (buildEntry dst prim active critical).match_dst = dst := by
  rw [buildEntry]
  rw [(foldBackup_fields critical prim active _).1,
    (foldPriority_fields dst active _).1]

theorem buildEntry_action (dst : Node) (prim : List Node)
    (active critical : List Flow) :
    (buildEntry dst prim active critical).action = prim := by
  rw [buildEntry]
  rw [(foldBackup_fields critical prim active _).2.1,
    (foldPriority_fields dst active _).2.1]

theorem buildEntry_priority (dst : Node) (prim : List Node)
    (active critical : List Flow) :
    ((buildEntry dst prim active critical).priority = Priority.high
      ↔ ∃ p ∈ active, p.2 = dst) := by
  rw [buildEntry]
  rw [(foldBackup_fields critical prim active _).2.2,
    foldPriority_high_iff dst active _]
  constructor
  · rintro (h | h)
    · exact h
    · cases h
  · exact fun h => Or.inl h

theorem buildEntry_backup (dst : Node) (prim : List Node)
    (active critical : List Flow) :
    (buildEntry dst prim active critical).backup
      = if (∃ p ∈ active, p ∈ critical) ∧ prim.length > 1
        then some (prim.drop 1) else none := by
  rw [buildEntry, foldBackup_value critical prim active _,
    (foldPriority_fields dst active _).2.2]

/-! ### `install_flows` characterization -/

theorem dictGet_map_keyed {α : Type} (l : List Node) (hl : l.Nodup) (F : Node → α) :
    ∀ k, k ∈ l → dictGet (l.map (fun x => (x, F x))) k = some (F k) := by
  induction l with
  | nil => intro k hk; cases hk
  | cons a t ih =>
      intro k hk
      have hn := List.nodup_cons.1 hl
      rcases List.mem_cons.1 hk with heq | hk1
      · subst heq
        show (if k = k then some (F k) else _) = some (F k)
        rw [if_pos rfl]
      · have hak : a ≠ k := fun hc => hn.1 (hc ▸ hk1)
        show (if a = k then some (F a) else dictGet (t.map (fun x => (x, F x))) k)
          = some (F k)
        rw [if_neg hak]
        exact ih hn.2 k hk1

theorem installFlows_row (g : Graph) (active critical : List Flow)
    (σ : Node → Node → List Node → List Node) (hWF : WF g) (sw : Node)
    (hsw : sw ∈ nodesG g) :
    dictGet (installFlows g active critical σ) sw
      = some ((nodesG g).filterMap (fun dst =>
          if dst = sw ∨ (dijkstra g sw).dist dst = ⊤ then none
          else some (buildEntry dst
            (σ sw dst (equalCostNextHops g sw dst (dijkstra g sw).dist))
            active critical))) := by
  exact dictGet_map_keyed (nodesG g) hWF.1 _ sw hsw

theorem find?_filterMap_keyed (F : Node → Option Entry)
    (hF : ∀ d e, F d = some e → e.match_dst = d) (dst : Node) :
    ∀ l : List Node, l.Nodup → dst ∈ l →
      findEntry (l.filterMap F) dst = F dst := by
  intro l
  induction l with
  | nil => intro _ hk; cases hk
  | cons a t ih =>
      intro hl hk
      have hn := List.nodup_cons.1 hl
      rw [List.filterMap_cons]
      rcases List.mem_cons.1 hk with heq | hk1
      · subst heq
        cases hFa : F dst with
        | none =>
            show findEntry (List.filterMap F t) dst = none
            rw [findEntry]
            apply List.find?_eq_none.2
            intro e he
            rcases List.mem_filterMap.1 he with ⟨d, hd, hFd⟩
            have hmd : e.match_dst = d := hF d e hFd
            simp only [decide_eq_true_eq]
            rw [hmd]
            exact fun hc => hn.1 (hc ▸ hd)
        | some e =>
            show findEntry (e :: List.filterMap F t) dst = some e
            rw [findEntry]
            apply List.find?_cons_of_pos
            simp only [decide_eq_true_eq]
            exact hF dst e hFa
      · have hak : a ≠ dst := fun hc => hn.1 (hc ▸ hk1)
        cases hFa : F a with
        | none =>
            show findEntry (List.filterMap F t) dst = F dst
            exact ih hn.2 hk1
        | some e =>
            show findEntry (e :: List.filterMap F t) dst = F dst
            rw [findEntry, List.find?_cons_of_neg]
            · exact ih hn.2 hk1
            · simp only [decide_eq_true_eq]
              rw [hF a e hFa]
              exact hak

/-- The entry that `install_flows` writes for a reachable destination. -/
theorem installFlows_entry (g : Graph) (active critical : List Flow)
    (σ : Node → Node → List Node → List Node) (hWF : WF g) (sw dst : Node)
    (hsw : sw ∈ nodesG g) (hdst : dst ∈ nodesG g) (hne : dst ≠ sw)
    (hreach : (dijkstra g sw).dist dst ≠ ⊤) :
    ∃ row, dictGet (installFlows g active critical σ) sw = some row ∧
      findEntry row dst = some (buildEntry dst
        (σ sw dst (equalCostNextHops g sw dst (dijkstra g sw).dist))
        active critical) := by
  refine ⟨_, installFlows_row g active critical σ hWF sw hsw, ?_⟩
  rw [find?_filterMap_keyed _ ?_ dst (nodesG g) hWF.1 hdst]
  · rw [if_neg (by tauto)]
  · intro d e hde
    by_cases hc : d = sw ∨ (dijkstra g sw).dist d = ⊤
    · rw [if_pos hc] at hde
      cases hde
    · rw [if_neg hc, Option.some_inj] at hde
      rw [← hde]
      exact buildEntry_match_dst _ _ _ _

theorem mem_equalCostNextHops (g : Graph) (sw dst : Node) (dist : Node → Dist)
    (hWF : WF g) (v : Node) :
    (v ∈ equalCostNextHops g sw dst dist
      ↔ ∃ w, lookupEdge g sw v = some w ∧ dist v + ((w : Nat) : Dist) = dist dst) := by
  rw [equalCostNextHops]
  constructor
  · intro hv
    rcases List.mem_map.1 hv with ⟨q, hq, rfl⟩
    have hq2 := List.mem_filter.1 hq
    refine ⟨q.2, ?_, ?_⟩
    · rw [lookupEdge]
      exact dictGet_of_mem (hWF.rowNodup sw) (by cases q; exact hq2.1)
    · have := hq2.2
      simpa using this
  · rintro ⟨w, hlook, hcond⟩
    apply List.mem_map.2
    refine ⟨(v, w), ?_, rfl⟩
    apply List.mem_filter.2
    refine ⟨mem_of_dictGet hlook, by simpa using hcond⟩

/-! ### Concrete states used by counterexamples and witnesses -/

/-- Entry lookup through the whole table. -/
def entryAt (t : FlowTable) (sw dst : Node) : Option Entry :=
  (dictGet t sw).bind (fun row => findEntry row dst)

/-- A square topology `A-B-D-C-A`, unit weights. -/
def gSquare : Graph :=
  addLink (addLink (addLink (addLink [] "A" "B" 1) "A" "C" 1) "B" "D" 1) "C" "D" 1

/-- The scenario topology of the spec: S1-S2(1), S1-S3(1), S2-S4(1), S3-S4(1),
S1-S4(5). -/
def scenarioTopo : Graph :=
  addLink (addLink (addLink (addLink (addLink [] "S1" "S2" 1) "S1" "S3" 1)
    "S2" "S4" 1) "S3" "S4" 1) "S1" "S4" 5

/-- Two disconnected links. -/
def gDisc : Graph := addLink (addLink [] "A" "B" 1) "C" "D" 1

/-- One active flow, the statically critical one. -/
def activeOne : List Flow := [("H2", "S4")]

/-- Identity realization of the shuffle. -/
def idPerm : Node → Node → List Node → List Node := fun _ _ l => l

/-- Reversing realization of the shuffle. -/
def revPerm : Node → Node → List Node → List Node := fun _ _ l => l.reverse

theorem priority_eq_normal_of_ne_high (pr : Priority) (h : pr ≠ Priority.high) :
    pr = Priority.normal := by
  cases pr with
  | normal => rfl
  | high => exact absurd rfl h

/-! ### Claim theorems -/

/-- C1 counterexample: with the critical flow (H2,S4) active, the flow table of
the square topology carries a backup on the entry for destination `D` of switch
`A`, although no active flow has destination `D` — refuting "backup is present
iff some active flow with destination dst is in the critical-flow set and the
action list has more than one element" as stated. -/
theorem C1_counterexample :
    ∃ e, entryAt (installFlows gSquare activeOne criticalFlows idPerm) "A" "D"
        = some e ∧
      e.backup ≠ none ∧
      ¬ ((∃ p ∈ activeOne, p.2 = "D" ∧ p ∈ criticalFlows) ∧ e.action.length > 1) :=
  ⟨{ match_dst := "D", action := ["B", "C"], priority := Priority.normal,
     backup := some ["C"] },
    by decide, by decide, by decide⟩

/-- C1 (amended): the entry for a reachable destination `dst ≠ sw` has a backup
iff some active flow (with any destination) is in the critical-flow set and the
action list has more than one element; when present the backup is the action
list minus its first element. -/
theorem C1_backup (g : Graph) (active critical : List Flow)
    (σ : Node → Node → List Node → List Node) (hWF : WF g) (sw dst : Node)
    (hsw : sw ∈ nodesG g) (hdst : dst ∈ nodesG g) (hne : dst ≠ sw)
    (hreach : (dijkstra g sw).dist dst ≠ ⊤) :
    ∃ row e, dictGet (installFlows g active critical σ) sw = some row ∧
      findEntry row dst = some e ∧
      (e.backup ≠ none ↔ (∃ p ∈ active, p ∈ critical) ∧ e.action.length > 1) ∧
      (∀ l, e.backup = some l → l = e.action.drop 1) := by
  rcases installFlows_entry g active critical σ hWF sw dst hsw hdst hne hreach
    with ⟨row, hrow, hfind⟩
  refine ⟨row, _, hrow, hfind, ?_, ?_⟩
  · rw [buildEntry_backup, buildEntry_action]
    by_cases hc : (∃ p ∈ active, p ∈ critical) ∧
        (σ sw dst (equalCostNextHops g sw dst (dijkstra g sw).dist)).length > 1
    · rw [if_pos hc]
      constructor
      · exact fun _ => hc
      · intro _
        exact fun hcon => by cases hcon
    · rw [if_neg hc]
      constructor
      · exact fun hcon => absurd rfl hcon
      · exact fun h2 => absurd h2 hc
  · intro l hl
    rw [buildEntry_backup] at hl
    rw [buildEntry_action]
    by_cases hc : (∃ p ∈ active, p ∈ critical) ∧
        (σ sw dst (equalCostNextHops g sw dst (dijkstra g sw).dist)).length > 1
    · rw [if_pos hc, Option.some_inj] at hl
      exact hl.symm
    · rw [if_neg hc] at hl
      cases hl

/-- Witness for C1 (amended) at the square topology with the critical flow
active and the identity shuffle. -/
theorem C1_backup_witness :
    WF gSquare ∧ "A" ∈ nodesG gSquare ∧ "D" ∈ nodesG gSquare ∧ "D" ≠ "A" ∧
    (dijkstra gSquare "A").dist "D" ≠ ⊤ ∧
    (∃ row e, dictGet (installFlows gSquare activeOne criticalFlows idPerm) "A"
        = some row ∧
      findEntry row "D" = some e ∧
      (e.backup ≠ none ↔ (∃ p ∈ activeOne, p ∈ criticalFlows)
        ∧ e.action.length > 1) ∧
      (∀ l, e.backup = some l → l = e.action.drop 1)) :=
  ⟨by decide, by decide, by decide, by decide, by decide,
    C1_backup gSquare activeOne criticalFlows idPerm (by decide) "A" "D"
      (by decide) (by decide) (by decide) (by decide)⟩

/-- C2: for every switch `sw` and reachable destination `dst ≠ sw`, the entry
that `install_flows` writes for `dst` has priority `high` iff some active
flow's destination equals `dst`, and `normal` otherwise. -/
theorem C2_priority (g : Graph) (active critical : List Flow)
    (σ : Node → Node → List Node → List Node) (hWF : WF g) (sw dst : Node)
    (hsw : sw ∈ nodesG g) (hdst : dst ∈ nodesG g) (hne : dst ≠ sw)
    (hreach : (dijkstra g sw).dist dst ≠ ⊤) :
    ∃ row e, dictGet (installFlows g active critical σ) sw = some row ∧
      findEntry row dst = some e ∧
      (e.priority = Priority.high ↔ ∃ p ∈ active, p.2 = dst) ∧
      (e.priority = Priority.normal ↔ ¬ ∃ p ∈ active, p.2 = dst) := by
  rcases installFlows_entry g active critical σ hWF sw dst hsw hdst hne hreach
    with ⟨row, hrow, hfind⟩
  have hp := buildEntry_priority dst
    (σ sw dst (equalCostNextHops g sw dst (dijkstra g sw).dist)) active critical
  refine ⟨row, _, hrow, hfind, hp, ?_, ?_⟩
  · intro hn hex
    rw [hp.2 hex] at hn
    cases hn
  · intro hnex
    apply priority_eq_normal_of_ne_high
    intro hc
    exact hnex (hp.1 hc)

/-- Witness for C2: after injecting the flow (H1,D), the entry for `D` at
switch `A` is high-priority. -/
theorem C2_priority_witness :
    WF gSquare ∧ "A" ∈ nodesG gSquare ∧ "D" ∈ nodesG gSquare ∧ "D" ≠ "A" ∧
    (dijkstra gSquare "A").dist "D" ≠ ⊤ ∧
    (∃ row e, dictGet (installFlows gSquare [("H1", "D")] criticalFlows idPerm) "A"
        = some row ∧
      findEntry row "D" = some e ∧
      (e.priority = Priority.high ↔ ∃ p ∈ [(("H1" : Node), ("D" : Node))], p.2 = "D") ∧
      (e.priority = Priority.normal ↔ ¬ ∃ p ∈ [(("H1" : Node), ("D" : Node))], p.2 = "D")) :=
  ⟨by decide, by decide, by decide, by decide, by decide,
    C2_priority gSquare [("H1", "D")] criticalFlows idPerm (by decide) "A" "D"
      (by decide) (by decide) (by decide) (by decide)⟩

/-- C3: the action list of the entry for a reachable `dst ≠ sw`, viewed as a
set, is exactly the set of neighbours `v` of `sw` with
`dist[v] + weight(sw,v) = dist[dst]` (distances computed from `sw`). -/
theorem C3_action (g : Graph) (active critical : List Flow)
    (σ : Node → Node → List Node → List Node) (hWF : WF g)
    (hσ : ∀ a b l, (σ a b l).Perm l) (sw dst : Node)
    (hsw : sw ∈ nodesG g) (hdst : dst ∈ nodesG g) (hne : dst ≠ sw)
    (hreach : (dijkstra g sw).dist dst ≠ ⊤) :
    ∃ row e, dictGet (installFlows g active critical σ) sw = some row ∧
      findEntry row dst = some e ∧
      ∀ v, (v ∈ e.action ↔ ∃ w, lookupEdge g sw v = some w ∧
        (dijkstra g sw).dist v + ((w : Nat) : Dist) = (dijkstra g sw).dist dst) := by
  rcases installFlows_entry g active critical σ hWF sw dst hsw hdst hne hreach
    with ⟨row, hrow, hfind⟩
  refine ⟨row, _, hrow, hfind, ?_⟩
  intro v
  rw [buildEntry_action, (hσ sw dst _).mem_iff]
  exact mem_equalCostNextHops g sw dst (dijkstra g sw).dist hWF v

/-- Witness for C3 at the scenario topology: the ECMP entry of S1 for S4. -/
theorem C3_action_witness :
    WF scenarioTopo ∧ (∀ a b l, (idPerm a b l).Perm l) ∧
    "S1" ∈ nodesG scenarioTopo ∧ "S4" ∈ nodesG scenarioTopo ∧ "S4" ≠ "S1" ∧
    (dijkstra scenarioTopo "S1").dist "S4" ≠ ⊤ ∧
    (∃ row e, dictGet (installFlows scenarioTopo [] criticalFlows idPerm) "S1"
        = some row ∧
      findEntry row "S4" = some e ∧
      ∀ v, (v ∈ e.action ↔ ∃ w, lookupEdge scenarioTopo "S1" v = some w ∧
        (dijkstra scenarioTopo "S1").dist v + ((w : Nat) : Dist)
          = (dijkstra scenarioTopo "S1").dist "S4")) :=
  ⟨by decide, fun _ _ l => List.Perm.refl l, by decide, by decide, by decide,
    by decide,
    C3_action scenarioTopo [] criticalFlows idPerm (by decide)
      (fun _ _ l => List.Perm.refl l) "S1" "S4" (by decide) (by decide)
      (by decide) (by decide)⟩

/-- C4: for topology nodes `src` and `dst`, `compute_path` never raises, it
returns the unreachable result iff no walk joins `src` to `dst`, and any path
it returns is a walk from `src` to `dst` whose weight equals the computed
shortest distance and is minimal among all walks. -/
theorem C4_computePath (g : Graph) (hWF : WF g) (src dst : Node)
    (hsrc : src ∈ nodesG g) (hdst : dst ∈ nodesG g) :
    (computePath g src dst = Except.ok none ↔ ¬ ∃ l, IsWalkFromTo g l src dst) ∧
    (∀ p, computePath g src dst = Except.ok (some p) →
      IsWalkFromTo g p src dst ∧
      ((walkWeight g p : Nat) : Dist) = (dijkstra g src).dist dst ∧
      ∀ q, IsWalkFromTo g q src dst → walkWeight g p ≤ walkWeight g q) ∧
    (∃ r, computePath g src dst = Except.ok r) := by
  obtain ⟨hpq, hInv⟩ := dijkstra_spec g src hWF
  refine ⟨?_, ?_, ?_⟩
  · constructor
    · intro heq
      rw [← top_iff_no_walk g src dst hWF]
      by_contra hT
      rcases computePath_spec g src dst hWF hdst with ⟨h1, _⟩ | ⟨p, h2, _⟩
      · exact hT h1
      · rw [heq] at h2
        rw [Except.ok.injEq] at h2
        cases h2
    · intro hnw
      exact computePath_unreachable g src dst (Or.inl hdst)
        ((top_iff_no_walk g src dst hWF).2 hnw)
  · intro p hp
    rcases computePath_spec g src dst hWF hdst with ⟨_, h1⟩ | ⟨p2, h2, hh, hl, hwb, hww⟩
    · rw [hp] at h1
      rw [Except.ok.injEq] at h1
      cases h1
    · rw [hp] at h2
      rw [Except.ok.injEq, Option.some_inj] at h2
      subst h2
      refine ⟨⟨hh, hl, hwb⟩, hww, ?_⟩
      intro q hq
      have hle := dist_le_walk g src hWF q src dst hq.2.2 hq.1 hq.2.1
      rw [hInv.distSrc, zero_add, ← hww] at hle
      exact_mod_cast hle
  · rcases computePath_spec g src dst hWF hdst with ⟨_, h1⟩ | ⟨p2, h2, _⟩
    · exact ⟨none, h1⟩
    · exact ⟨some p2, h2⟩

/-- Witness for C4 at the scenario topology, S1 to S4. -/
theorem C4_computePath_witness :
    WF scenarioTopo ∧ "S1" ∈ nodesG scenarioTopo ∧ "S4" ∈ nodesG scenarioTopo ∧
    ((computePath scenarioTopo "S1" "S4" = Except.ok none
        ↔ ¬ ∃ l, IsWalkFromTo scenarioTopo l "S1" "S4") ∧
     (∀ p, computePath scenarioTopo "S1" "S4" = Except.ok (some p) →
       IsWalkFromTo scenarioTopo p "S1" "S4" ∧
       ((walkWeight scenarioTopo p : Nat) : Dist)
         = (dijkstra scenarioTopo "S1").dist "S4" ∧
       ∀ q, IsWalkFromTo scenarioTopo q "S1" "S4" →
         walkWeight scenarioTopo p ≤ walkWeight scenarioTopo q) ∧
     (∃ r, computePath scenarioTopo "S1" "S4" = Except.ok r)) :=
  ⟨by decide, by decide, by decide,
    C4_computePath scenarioTopo (by decide) "S1" "S4" (by decide) (by decide)⟩

/-- C5 counterexample: querying a destination that is not a node raises a
`KeyError` (the strict `dist[dst]` access), refuting "it never fails with an
error" for identifiers not present as nodes. -/
theorem C5_counterexample : computePath ([] : Graph) "A" "B" = Except.error () :=
  rfl

/-- C5 (amended): for any source identifier and any destination that is a node
of the topology, `compute_path` completes and returns either a path or the
distinguishable unreachable result, never an error. -/
theorem C5_total (g : Graph) (hWF : WF g) (src dst : Node)
    (hdst : dst ∈ nodesG g) : ∃ r, computePath g src dst = Except.ok r := by
  rcases computePath_spec g src dst hWF hdst with ⟨_, h1⟩ | ⟨p, h2, _⟩
  · exact ⟨none, h1⟩
  · exact ⟨some p, h2⟩

/-- Witness for C5 (amended) with a source that is not even a node. -/
theorem C5_total_witness :
    WF gSquare ∧ "A" ∈ nodesG gSquare ∧
    (∃ r, computePath gSquare "Z" "A" = Except.ok r) :=
  ⟨by decide, by decide, C5_total gSquare (by decide) "Z" "A" (by decide)⟩

/-- C6: after every sequence of topology operations starting from the empty
graph the adjacency is symmetric, and immediately after `remove_node n` the
node `n` is gone and no remaining row references it. -/
theorem C6_symmetry (ops : List TopOp) :
    (∀ u v w, lookupEdge (applyOps ops) u v = some w →
      lookupEdge (applyOps ops) v u = some w) ∧
    ∀ n, n ∉ nodesG (removeNode (applyOps ops) n) ∧
      ∀ p ∈ removeNode (applyOps ops) n, dictGet p.2 n = none := by
  have hWF := WF_applyOps ops
  exact ⟨fun u v w h => hWF.symmE u v w h,
    fun n => removeNode_clean (applyOps ops) n hWF⟩

/-- C7: the distance map of `compute_shortest_paths(s)` satisfies the
shortest-path fixpoint on every link. -/
theorem C7_fixpoint (g : Graph) (hWF : WF g) (s a b : Node) (w : Nat)
    (h : lookupEdge g a b = some w) :
    (dijkstra g s).dist b ≤ (dijkstra g s).dist a + ((w : Nat) : Dist) ∧
    (dijkstra g s).dist a ≤ (dijkstra g s).dist b + ((w : Nat) : Dist) := by
  exact ⟨dijkstra_fix_edge g s hWF h,
    dijkstra_fix_edge g s hWF (hWF.symmE a b w h)⟩

/-- Witness for C7 on a weight-5 link of the scenario topology. -/
theorem C7_fixpoint_witness :
    WF scenarioTopo ∧ lookupEdge scenarioTopo "S1" "S4" = some 5 ∧
    ((dijkstra scenarioTopo "S2").dist "S4"
        ≤ (dijkstra scenarioTopo "S2").dist "S1" + ((5 : Nat) : Dist) ∧
     (dijkstra scenarioTopo "S2").dist "S1"
        ≤ (dijkstra scenarioTopo "S2").dist "S4" + ((5 : Nat) : Dist)) :=
  ⟨by decide, by decide,
    C7_fixpoint scenarioTopo (by decide) "S2" "S1" "S4" 5 (by decide)⟩

/-- C8: evaluation of the reconfiguration scenario.  After removing link
S2-S4, `compute_path(S1,S4)` returns the two-link path [S1, S3, S4] via S3,
and the rebuilt table still lists S2 as a next hop towards S4 at switch S1 —
the code diverges from the claim. -/
theorem C8_bug_eval :
    computePath (removeLinkAndReconfigure scenarioTopo "S2" "S4" []
        criticalFlows idPerm).1 "S1" "S4" = Except.ok (some ["S1", "S3", "S4"]) ∧
    ∃ e, entryAt (removeLinkAndReconfigure scenarioTopo "S2" "S4" []
        criticalFlows idPerm).2 "S1" "S4" = some e ∧ "S2" ∈ e.action ∧
      e.action.length = 2 :=
  ⟨rfl,
    ⟨{ match_dst := "S4", action := ["S2", "S3"], priority := Priority.normal,
       backup := none },
      by decide, by decide, by decide⟩⟩

/-- C9: with unchanged topology and flow state, two `install_flows` runs with
different shuffle outcomes produce, for every (switch, destination) pair, the
same action set and the same priority. -/
theorem C9_idempotent (g : Graph) (active critical : List Flow)
    (σ1 σ2 : Node → Node → List Node → List Node) (hWF : WF g)
    (h1 : ∀ a b l, (σ1 a b l).Perm l) (h2 : ∀ a b l, (σ2 a b l).Perm l)
    (sw dst : Node) (hsw : sw ∈ nodesG g) (hdst : dst ∈ nodesG g)
    (hne : dst ≠ sw) (hreach : (dijkstra g sw).dist dst ≠ ⊤) :
    ∃ row1 row2 e1 e2,
      dictGet (installFlows g active critical σ1) sw = some row1 ∧
      dictGet (installFlows g active critical σ2) sw = some row2 ∧
      findEntry row1 dst = some e1 ∧ findEntry row2 dst = some e2 ∧
      e1.priority = e2.priority ∧ (∀ v, v ∈ e1.action ↔ v ∈ e2.action) := by
  rcases installFlows_entry g active critical σ1 hWF sw dst hsw hdst hne hreach
    with ⟨row1, hrow1, hfind1⟩
  rcases installFlows_entry g active critical σ2 hWF sw dst hsw hdst hne hreach
    with ⟨row2, hrow2, hfind2⟩
  refine ⟨row1, row2, _, _, hrow1, hrow2, hfind1, hfind2, ?_, ?_⟩
  · have hp1 := buildEntry_priority dst
      (σ1 sw dst (equalCostNextHops g sw dst (dijkstra g sw).dist)) active critical
    have hp2 := buildEntry_priority dst
      (σ2 sw dst (equalCostNextHops g sw dst (dijkstra g sw).dist)) active critical
    by_cases hc : ∃ p ∈ active, p.2 = dst
    · rw [hp1.2 hc, hp2.2 hc]
    · rw [priority_eq_normal_of_ne_high _ (fun hx => hc (hp1.1 hx)),
        priority_eq_normal_of_ne_high _ (fun hx => hc (hp2.1 hx))]
  · intro v
    rw [buildEntry_action, buildEntry_action, (h1 sw dst _).mem_iff,
      (h2 sw dst _).mem_iff]

/-- Witness for C9: identity and reversing shuffles at the scenario topology.  -/
theorem C9_idempotent_witness :
    WF scenarioTopo ∧ (∀ a b l, (idPerm a b l).Perm l) ∧
    (∀ a b l, (revPerm a b l).Perm l) ∧ "S1" ∈ nodesG scenarioTopo ∧
    "S4" ∈ nodesG scenarioTopo ∧ "S4" ≠ "S1" ∧
    (dijkstra scenarioTopo "S1").dist "S4" ≠ ⊤ ∧
    (∃ row1 row2 e1 e2,
      dictGet (installFlows scenarioTopo activeOne criticalFlows idPerm) "S1"
        = some row1 ∧
      dictGet (installFlows scenarioTopo activeOne criticalFlows revPerm) "S1"
        = some row2 ∧
      findEntry row1 "S4" = some e1 ∧ findEntry row2 "S4" = some e2 ∧
      e1.priority = e2.priority ∧ (∀ v, v ∈ e1.action ↔ v ∈ e2.action)) :=
  ⟨by decide, fun _ _ l => List.Perm.refl l, fun _ _ l => List.reverse_perm l,
    by decide, by decide, by decide, by decide,
    C9_idempotent scenarioTopo activeOne criticalFlows idPerm revPerm
      (by decide) (fun _ _ l => List.Perm.refl l)
      (fun _ _ l => List.reverse_perm l) "S1" "S4" (by decide) (by decide)
      (by decide) (by decide)⟩

/-- C10: when `dst` is unreachable from `sw`, `compute_equal_cost_next_hops`
returns exactly the neighbours of `sw` whose distance is also infinite
(infinity plus a finite weight equals infinity), and is non-empty whenever
such a neighbour exists. -/
theorem C10_unreachable (g : Graph) (hWF : WF g) (sw dst : Node)
    (h : (dijkstra g sw).dist dst = ⊤) :
    (∀ v, v ∈ equalCostNextHops g sw dst (dijkstra g sw).dist ↔
      ∃ w, lookupEdge g sw v = some w ∧ (dijkstra g sw).dist v = ⊤) ∧
    ((∃ q ∈ neighborsG g sw, (dijkstra g sw).dist q.1 = ⊤) →
      equalCostNextHops g sw dst (dijkstra g sw).dist ≠ []) := by
  have hmem : ∀ v, v ∈ equalCostNextHops g sw dst (dijkstra g sw).dist ↔
      ∃ w, lookupEdge g sw v = some w ∧ (dijkstra g sw).dist v = ⊤ := by
    intro v
    rw [mem_equalCostNextHops g sw dst (dijkstra g sw).dist hWF v]
    constructor
    · rintro ⟨w, hw, hcond⟩
      refine ⟨w, hw, ?_⟩
      rw [h] at hcond
      rcases WithTop.add_eq_top.1 hcond with h1 | h1
      · exact h1
      · exact absurd h1 WithTop.coe_ne_top
    · rintro ⟨w, hw, htop⟩
      refine ⟨w, hw, ?_⟩
      rw [h, htop, top_add]
  refine ⟨hmem, ?_⟩
  rintro ⟨q, hq, htop⟩ hnil
  have hlook : lookupEdge g sw q.1 = some q.2 :=
    dictGet_of_mem (hWF.rowNodup sw) (by cases q; exact hq)
  have : q.1 ∈ equalCostNextHops g sw dst (dijkstra g sw).dist :=
    (hmem q.1).2 ⟨q.2, hlook, htop⟩
  rw [hnil] at this
  cases this

/-- Witness for C10 at the disconnected topology, source A, target C. -/
theorem C10_unreachable_witness :
    WF gDisc ∧ (dijkstra gDisc "A").dist "C" = ⊤ ∧
    ((∀ v, v ∈ equalCostNextHops gDisc "A" "C" (dijkstra gDisc "A").dist ↔
      ∃ w, lookupEdge gDisc "A" v = some w ∧ (dijkstra gDisc "A").dist v = ⊤) ∧
    ((∃ q ∈ neighborsG gDisc "A", (dijkstra gDisc "A").dist q.1 = ⊤) →
      equalCostNextHops gDisc "A" "C" (dijkstra gDisc "A").dist ≠ [])) :=
  ⟨by decide, by decide, C10_unreachable gDisc (by decide) "A" "C" (by decide)⟩

end SDN







